import Mathlib

/-!
Verification of the go-openai speech and audio client bindings.

The development embeds the Go sources (speech.go and the audio module) in
Lean. Finite float64 values are modelled as rationals together with an
executable round-to-nearest-even rounding function onto the binary64 grid;
NaN and the two infinities are explicit constructors. Byte strings are
modelled as lists of characters. The multipart form builder and the HTTP
layer, which are external to the sources, are modelled as oracles that
either succeed or fail at each operation, and the form content is recorded
as a trace of events.

All arithmetic helpers are written with explicit fuel and binary recursion
so that every definition evaluates by kernel reduction on concrete inputs.
-/

set_option maxRecDepth 8000

attribute [local semireducible] Rat.add Rat.mul Rat.inv Rat.sub

namespace GoOpenAI

/-! ## Kernel-evaluable arithmetic helpers -/

/-- Binary exponentiation on rationals, with fuel bounding the bit length
of the exponent. -/
def powAux (b : ℚ) : ℕ → ℕ → ℚ
  | 0, _ => 1
  | fuel + 1, n =>
    if n = 0 then 1
    else
      let h := powAux b fuel (n / 2)
      if n % 2 = 0 then h * h else h * h * b

/-- Integer power of two on rationals, by binary exponentiation. -/
def pow2z (e : ℤ) : ℚ :=
  if 0 ≤ e then powAux 2 64 e.toNat else (powAux 2 64 (-e).toNat)⁻¹

/-- Integer power of ten on rationals, by binary exponentiation. -/
def pow10z (e : ℤ) : ℚ :=
  if 0 ≤ e then powAux 10 64 e.toNat else (powAux 10 64 (-e).toNat)⁻¹

/-- Floor logarithm on naturals, with explicit fuel. -/
def natLogAux (b : ℕ) : ℕ → ℕ → ℕ
  | 0, _ => 0
  | fuel + 1, n => if b ≤ n then natLogAux b fuel (n / b) + 1 else 0

/-- Ceiling logarithm on naturals, with explicit fuel. -/
def natClogAux (b : ℕ) : ℕ → ℕ → ℕ
  | 0, _ => 0
  | fuel + 1, n => if 2 ≤ n then natClogAux b fuel ((n + b - 1) / b) + 1 else 0

/-- Floor logarithm of a positive rational, as Int.log but fuel-bounded.
For every value in the binary64 range it agrees with Int.log. -/
def ratLog (b : ℕ) (r : ℚ) : ℤ :=
  if 1 ≤ r then (natLogAux b 2000 ⌊r⌋₊ : ℤ) else -(natClogAux b 2000 ⌈r⁻¹⌉₊ : ℤ)

/-- Little-endian base-b digits with explicit fuel. -/
def digitsAux (b : ℕ) : ℕ → ℕ → List ℕ
  | 0, _ => []
  | fuel + 1, n => if n = 0 then [] else n % b :: digitsAux b fuel (n / b)

/-- Little-endian decimal digits of a natural number. -/
def natDigits (n : ℕ) : List ℕ := digitsAux 10 4000 n

/-! ## The float64 model -/

/-- A Go float64 value: NaN, one of the two infinities, or a finite value,
modelled by its exact rational value. The model identifies the two IEEE
zeros. -/
inductive GoFloat64 where
  | nan
  | posInf
  | negInf
  | finite (val : ℚ)
deriving DecidableEq

/-- The largest finite binary64 value, equal to (2 ^ 53 - 1) * 2 ^ 971;
see maxFiniteF64_eq. -/
def maxFiniteF64 : ℚ := 179769313486231570814527423731704356798070567525844996598917476803157260780028538760589558632766878171540458953514382464234321326889464182768467546703537516986049910576551282076245490090389328944075868508455133942304583236903222948165808559332123348274797826204144723168738177180919299881250404026184124858368

/-- Round a rational to the nearest integer, ties to even. -/
def roundHalfEven (x : ℚ) : ℤ :=
  if x - ⌊x⌋ < 1 / 2 then ⌊x⌋
  else if (1 : ℚ) / 2 < x - ⌊x⌋ then ⌊x⌋ + 1
  else if Even ⌊x⌋ then ⌊x⌋ else ⌊x⌋ + 1

/-- Round a real (rational) value to the nearest binary64 value, ties to
even, overflowing to the infinities. This is the IEEE 754 binding used by
the Go runtime when a decimal numeral is converted to a float64. -/
def roundF64 (q : ℚ) : GoFloat64 :=
  if q = 0 then .finite 0
  else
    let e := ratLog 2 |q|
    let es := max (e - 52) (-1074)
    let m := roundHalfEven (q / pow2z es)
    let r := (m : ℚ) * pow2z es
    if maxFiniteF64 < |r| then (if 0 < q then .posInf else .negInf)
    else .finite r

/-- A rational is a finite binary64 value exactly when it is a fixed point
of the rounding function. -/
def IsFiniteF64 (q : ℚ) : Prop := roundF64 q = .finite q

instance (q : ℚ) : Decidable (IsFiniteF64 q) := by
  unfold IsFiniteF64; infer_instance

/-- Truncation toward zero, as Go math.Trunc on finite values. -/
def truncQ (q : ℚ) : ℤ := if q < 0 then ⌈q⌉ else ⌊q⌋

/-! ## Decimal rendering (the strconv.AppendFloat model) -/

/-- The decimal digit characters of a natural number, most significant
first; zero is rendered as the single digit 0. -/
def natToChars (n : ℕ) : List Char :=
  if n = 0 then ['0'] else (natDigits n).reverse.map (fun d => Char.ofNat (48 + d))

/-- Render the natural number N, understood as a fixed-point value with k
fractional digits, in Go fixed-point style: the integer part, then a point
and exactly k fractional digits when k is positive. -/
def decCharsNat (N : ℕ) (k : ℕ) : List Char :=
  natToChars (N / 10 ^ k) ++
    (if k = 0 then [] else
      '.' :: (List.replicate (k - (natToChars (N % 10 ^ k)).length) '0' ++ natToChars (N % 10 ^ k)))

/-- Fixed-point formatting with prec fractional digits of a rational, with
correct rounding (ties to even), as strconv.AppendFloat with format f and a
nonnegative precision. -/
def formatFixed (q : ℚ) (prec : ℕ) : List Char :=
  (if q < 0 then ['-'] else []) ++
    decCharsNat (roundHalfEven (|q| * 10 ^ prec)).toNat prec

/-- Number of decimal digits needed after the point to write c exactly,
computed with explicit fuel. -/
def fracLenAux : ℕ → ℚ → ℕ
  | 0, _ => 0
  | fuel + 1, c => if c.den = 1 then 0 else fracLenAux fuel (c * 10) + 1

/-- Number of decimal digits after the point in the exact fixed-point
rendering of c. The fuel covers every value produced by the shortest-digit
search on binary64 inputs. -/
def fracLen (c : ℚ) : ℕ := fracLenAux 2000 c

/-- Exact fixed-point rendering of a decimal rational (one whose
denominator divides a power of ten). -/
def renderDec (c : ℚ) : List Char :=
  (if c < 0 then ['-'] else []) ++
    decCharsNat ((|c| * 10 ^ fracLen c).num.toNat) (fracLen c)

/-- One step of the shortest-decimal-digits search: at significand length
k, the two decimal grid values enclosing q in the decade of q. The step
returns the candidate that converts back to q, preferring the closer one
and breaking exact ties toward an even last digit, exactly as the Ryu
conversion used by strconv does. -/
def shortestAtK (q : ℚ) (t : ℤ) (k : ℕ) : Option ℚ :=
  let step := pow10z (t - k + 1)
  let lo := (⌊q / step⌋ : ℚ) * step
  let hi := lo + step
  let okLo := roundF64 lo = GoFloat64.finite q
  let okHi := roundF64 hi = GoFloat64.finite q
  if okLo ∧ okHi then
    some (if q - lo < hi - q then lo
      else if hi - q < q - lo then hi
      else if Even ⌊q / step⌋ then lo else hi)
  else if okLo then some lo
  else if okHi then some hi
  else none

/-- Search for the least significand length whose grid admits a value that
converts back to q, and return that value. -/
def shortestAux (q : ℚ) (t : ℤ) : ℕ → ℕ → Option ℚ
  | 0, _ => none
  | fuel + 1, k =>
    match shortestAtK q t k with
    | some c => some c
    | none => shortestAux q t fuel (k + 1)

/-- The value emitted by the shortest round-trip conversion of q; for a
rational that is not a binary64 value the search fails and q itself is
returned (that case is outside the float64 domain). -/
def shortest (q : ℚ) : ℚ :=
  match shortestAux q (ratLog 10 |q|) 2000 1 with
  | some c => c
  | none => q

/-- The model of strconv.AppendFloat(nil, n, byte f, prec, 64): fixed-point
with prec digits for a nonnegative precision, shortest round-trip digits
for precision -1. -/
def appendFloatF (n : ℚ) (prec : ℤ) : List Char :=
  if prec = -1 then renderDec (shortest n) else formatFixed n prec.toNat

/-- The FloatFrac type of speech.go wraps a float64. -/
abbrev FloatFrac := GoFloat64

/-- Model of FloatFrac.MarshalJSON from speech.go:

for NaN and the infinities return the error "unsupported number"; otherwise
use precision -1, forced to 1 for integral values, and return the bytes of
strconv.AppendFloat(nil, n, byte f, prec, 64). -/
def FloatFrac.MarshalJSON (f : FloatFrac) : Except String (List Char) :=
  match f with
  | .nan => .error "unsupported number"
  | .posInf => .error "unsupported number"
  | .negInf => .error "unsupported number"
  | .finite n =>
    let prec : ℤ := if ((truncQ n : ℚ) = n) then 1 else -1
    .ok (appendFloatF n prec)

/-! ## Correctness of the arithmetic helpers -/

theorem maxFiniteF64_eq : maxFiniteF64 = (2 ^ 53 - 1) * 2 ^ 971 := by
  unfold maxFiniteF64
  norm_num

theorem powAux_eq (b : ℚ) : ∀ fuel n, n < 2 ^ fuel → powAux b fuel n = b ^ n := by
  intro fuel
  induction fuel with
  | zero =>
    intro n hn
    interval_cases n
    rfl
  | succ f ih =>
    intro n hn
    unfold powAux
    by_cases h0 : n = 0
    · simp [h0]
    · simp only [h0, if_false]
      have hdiv : n / 2 < 2 ^ f := by
        rw [pow_succ] at hn
        omega
      rw [ih (n / 2) hdiv]
      have hsplit : n = 2 * (n / 2) + n % 2 := (Nat.div_add_mod n 2).symm
      by_cases h2 : n % 2 = 0
      · simp only [h2, if_true]
        rw [← pow_add]
        congr 1
        omega
      · simp only [h2, if_false]
        rw [← pow_add]
        have h1 : n % 2 = 1 := by omega
        have : b ^ (n / 2 + n / 2) * b = b ^ (n / 2 + n / 2 + 1) := by
          rw [pow_succ]
        rw [this]
        congr 1
        omega

theorem pow2z_eq (e : ℤ) (h : e.toNat < 2 ^ 64 ∧ (-e).toNat < 2 ^ 64) :
    pow2z e = (2 : ℚ) ^ e := by
  unfold pow2z
  rcases le_or_lt 0 e with he | he
  · rw [if_pos he, powAux_eq 2 64 e.toNat h.1, ← zpow_natCast (2 : ℚ),
      Int.toNat_of_nonneg he]
  · rw [if_neg (by omega), powAux_eq 2 64 (-e).toNat h.2, ← zpow_natCast (2 : ℚ),
      Int.toNat_of_nonneg (by omega), ← zpow_neg, neg_neg]

theorem pow10z_eq (e : ℤ) (h : e.toNat < 2 ^ 64 ∧ (-e).toNat < 2 ^ 64) :
    pow10z e = (10 : ℚ) ^ e := by
  unfold pow10z
  rcases le_or_lt 0 e with he | he
  · rw [if_pos he, powAux_eq 10 64 e.toNat h.1, ← zpow_natCast (10 : ℚ),
      Int.toNat_of_nonneg he]
  · rw [if_neg (by omega), powAux_eq 10 64 (-e).toNat h.2, ← zpow_natCast (10 : ℚ),
      Int.toNat_of_nonneg (by omega), ← zpow_neg, neg_neg]

theorem natLogAux_le_fuel (b : ℕ) : ∀ fuel n, natLogAux b fuel n ≤ fuel := by
  intro fuel
  induction fuel with
  | zero => intro n; simp [natLogAux]
  | succ f ih =>
    intro n
    unfold natLogAux
    split
    · exact Nat.succ_le_succ (ih (n / b))
    · exact Nat.zero_le _

theorem natClogAux_le_fuel (b : ℕ) : ∀ fuel n, natClogAux b fuel n ≤ fuel := by
  intro fuel
  induction fuel with
  | zero => intro n; simp [natClogAux]
  | succ f ih =>
    intro n
    unfold natClogAux
    split
    · exact Nat.succ_le_succ (ih _)
    · exact Nat.zero_le _

theorem ratLog_bound (b : ℕ) (r : ℚ) : -2000 ≤ ratLog b r ∧ ratLog b r ≤ 2000 := by
  unfold ratLog
  split
  · have := natLogAux_le_fuel b 2000 ⌊r⌋₊
    omega
  · have := natClogAux_le_fuel b 2000 ⌈r⁻¹⌉₊
    omega

/-- The exponent used inside roundF64. -/
def esF64 (q : ℚ) : ℤ := max (ratLog 2 |q| - 52) (-1074)

theorem esF64_bound (q : ℚ) : -1074 ≤ esF64 q ∧ esF64 q ≤ 1948 := by
  unfold esF64
  have := ratLog_bound 2 |q|
  omega

theorem pow2z_esF64 (q : ℚ) : pow2z (esF64 q) = (2 : ℚ) ^ esF64 q := by
  apply pow2z_eq
  have := esF64_bound q
  constructor <;> omega

/-- Unfolding of roundF64 for nonzero arguments in terms of zpow. -/
theorem roundF64_eq_of_ne (q : ℚ) (hq : q ≠ 0) :
    roundF64 q =
      (if maxFiniteF64 < |(roundHalfEven (q / 2 ^ esF64 q) : ℚ) * 2 ^ esF64 q| then
        (if 0 < q then GoFloat64.posInf else GoFloat64.negInf)
      else .finite ((roundHalfEven (q / 2 ^ esF64 q) : ℚ) * 2 ^ esF64 q)) := by
  have h1 : roundF64 q =
      (if maxFiniteF64 < |(roundHalfEven (q / pow2z (esF64 q)) : ℚ) * pow2z (esF64 q)| then
        (if 0 < q then GoFloat64.posInf else GoFloat64.negInf)
      else .finite ((roundHalfEven (q / pow2z (esF64 q)) : ℚ) * pow2z (esF64 q))) := by
    unfold roundF64 esF64
    rw [if_neg hq]
  rw [h1, pow2z_esF64]

/-! ## Basic lemmas about the rendering functions -/

theorem roundHalfEven_intCast (z : ℤ) : roundHalfEven (z : ℚ) = z := by
  unfold roundHalfEven
  simp [Int.floor_intCast]

theorem digitsAux_lt (b : ℕ) (hb : 0 < b) :
    ∀ fuel n d, d ∈ digitsAux b fuel n → d < b := by
  intro fuel
  induction fuel with
  | zero => intro n d h; simp [digitsAux] at h
  | succ f ih =>
    intro n d h
    unfold digitsAux at h
    by_cases h0 : n = 0
    · simp [h0] at h
    · simp only [h0, if_false] at h
      rcases List.mem_cons.mp h with h1 | h2
      · rw [h1]; exact Nat.mod_lt n hb
      · exact ih (n / b) d h2

theorem natToChars_mem (c : Char) (n : ℕ) (h : c ∈ natToChars n) :
    ∃ d, d < 10 ∧ c = Char.ofNat (48 + d) := by
  unfold natToChars at h
  by_cases h0 : n = 0
  · simp [h0] at h
    exact ⟨0, by norm_num, by simp [h]⟩
  · simp [h0] at h
    obtain ⟨d, hd, hc⟩ := h
    exact ⟨d, digitsAux_lt 10 (by norm_num) 4000 n d hd, hc.symm⟩

theorem decCharsNat_mem (c : Char) (N k : ℕ) (h : c ∈ decCharsNat N k) :
    c = '.' ∨ ∃ d, d < 10 ∧ c = Char.ofNat (48 + d) := by
  unfold decCharsNat at h
  rcases List.mem_append.mp h with h1 | h2
  · exact Or.inr (natToChars_mem c _ h1)
  · by_cases hk : k = 0
    · simp [hk] at h2
    · simp only [hk, if_false] at h2
      rcases List.mem_cons.mp h2 with h3 | h4
      · exact Or.inl h3
      · rcases List.mem_append.mp h4 with h5 | h6
        · have h7 := List.eq_of_mem_replicate h5
          exact Or.inr ⟨0, by norm_num, by simp [h7]⟩
        · exact Or.inr (natToChars_mem c _ h6)

theorem trunc_eq_self_iff (q : ℚ) : ((truncQ q : ℚ) = q) ↔ q.den = 1 := by
  constructor
  · intro h
    rw [← h, Rat.den_intCast]
  · intro h
    obtain ⟨n, hn⟩ : ∃ n : ℤ, (n : ℚ) = q := ⟨q.num, (Rat.den_eq_one_iff q).mp h⟩
    subst hn
    unfold truncQ
    split <;> simp

theorem roundF64_intCast_den (z : ℤ) (q : ℚ) (h : roundF64 (z : ℚ) = .finite q) :
    q.den = 1 := by
  by_cases hz : (z : ℚ) = 0
  · unfold roundF64 at h
    rw [if_pos hz] at h
    injection h with h1
    rw [← h1]
    simp
  · rw [roundF64_eq_of_ne _ hz] at h
    set es := esF64 (z : ℚ) with hes
    by_cases hov : maxFiniteF64 < |(roundHalfEven ((z : ℚ) / 2 ^ es) : ℚ) * 2 ^ es|
    · rw [if_pos hov] at h
      split at h <;> exact absurd h (by simp)
    · rw [if_neg hov] at h
      injection h with h1
      rcases le_or_lt 0 es with hpos | hneg
      · have h2 : (roundHalfEven ((z : ℚ) / 2 ^ es) : ℚ) * 2 ^ es =
            ((roundHalfEven ((z : ℚ) / 2 ^ es) * 2 ^ es.toNat : ℤ) : ℚ) := by
          push_cast
          rw [← zpow_natCast (2 : ℚ) es.toNat, Int.toNat_of_nonneg hpos]
        rw [h2] at h1
        rw [← h1, Rat.den_intCast]
      · have h0 : (0 : ℤ) ≤ -es := by omega
        have hpow : (2 : ℚ) ^ ((-es).toNat) = (2 : ℚ) ^ (-es : ℤ) := by
          rw [← zpow_natCast (2 : ℚ) (-es).toNat, Int.toNat_of_nonneg h0]
        have hz2 : ((z : ℚ) / 2 ^ es) = ((z * 2 ^ (-es).toNat : ℤ) : ℚ) := by
          push_cast
          rw [hpow, div_eq_mul_inv, ← zpow_neg]
        rw [hz2, roundHalfEven_intCast] at h1
        have h3 : ((z * 2 ^ (-es).toNat : ℤ) : ℚ) * 2 ^ es = ((z : ℚ)) := by
          push_cast
          rw [hpow, mul_assoc, ← zpow_add₀ (two_ne_zero), neg_add_cancel, zpow_zero,
            mul_one]
        rw [h3] at h1
        rw [← h1, Rat.den_intCast]

theorem shortestAtK_some (q : ℚ) (t : ℤ) (k : ℕ) (c : ℚ)
    (h : shortestAtK q t k = some c) : roundF64 c = .finite q := by
  simp only [shortestAtK] at h
  split_ifs at h with h1 h2 h3 h4 h5 h6 <;>
    first
      | (injection h with h0; subst h0; tauto)
      | exact absurd h (by simp)

theorem shortestAux_some (q : ℚ) (t : ℤ) :
    ∀ fuel k c, shortestAux q t fuel k = some c → roundF64 c = .finite q := by
  intro fuel
  induction fuel with
  | zero =>
    intro k c h
    exact absurd h (by simp [shortestAux])
  | succ n ih =>
    intro k c h
    unfold shortestAux at h
    rcases hk : shortestAtK q t k with _ | d
    · rw [hk] at h
      simp only at h
      exact ih (k + 1) c h
    · rw [hk] at h
      simp only at h
      injection h with h0
      rw [← h0]
      exact shortestAtK_some q t k d hk

theorem shortest_spec (q : ℚ) :
    roundF64 (shortest q) = .finite q ∨ shortest q = q := by
  unfold shortest
  cases h : shortestAux q (ratLog 10 |q|) 2000 1 with
  | some c => exact Or.inl (shortestAux_some _ _ _ _ _ h)
  | none => exact Or.inr rfl

theorem shortest_den (q : ℚ) (h : q.den ≠ 1) : (shortest q).den ≠ 1 := by
  intro hc
  rcases shortest_spec q with hr | hs
  · obtain ⟨n, hn⟩ : ∃ n : ℤ, (n : ℚ) = shortest q :=
      ⟨(shortest q).num, (Rat.den_eq_one_iff _).mp hc⟩
    rw [← hn] at hr
    exact h (roundF64_intCast_den n q hr)
  · rw [hs] at hc
    exact h hc

theorem fracLenAux_pos (fuel : ℕ) (c : ℚ) (h : c.den ≠ 1) :
    0 < fracLenAux (fuel + 1) c := by
  unfold fracLenAux
  simp [h]

theorem fracLen_pos (c : ℚ) (h : c.den ≠ 1) : 0 < fracLen c := by
  have h2 : (2000 : ℕ) = 1999 + 1 := by norm_num
  unfold fracLen
  rw [h2]
  exact fracLenAux_pos 1999 c h

theorem renderDec_dot (c : ℚ) (h : c.den ≠ 1) : '.' ∈ renderDec c := by
  unfold renderDec decCharsNat
  have hk := Nat.pos_iff_ne_zero.mp (fracLen_pos c h)
  simp [hk]

theorem renderDec_mem (ch : Char) (c : ℚ) (h : ch ∈ renderDec c) :
    ch = '-' ∨ ch = '.' ∨ ∃ d, d < 10 ∧ ch = Char.ofNat (48 + d) := by
  unfold renderDec at h
  rcases List.mem_append.mp h with h1 | h2
  · left
    split at h1 <;> simp_all
  · rcases decCharsNat_mem ch _ _ h2 with h3 | h4
    · exact Or.inr (Or.inl h3)
    · exact Or.inr (Or.inr h4)

theorem formatFixed_mem (ch : Char) (q : ℚ) (p : ℕ) (h : ch ∈ formatFixed q p) :
    ch = '-' ∨ ch = '.' ∨ ∃ d, d < 10 ∧ ch = Char.ofNat (48 + d) := by
  unfold formatFixed at h
  rcases List.mem_append.mp h with h1 | h2
  · left
    split at h1 <;> simp_all
  · rcases decCharsNat_mem ch _ _ h2 with h3 | h4
    · exact Or.inr (Or.inl h3)
    · exact Or.inr (Or.inr h4)

theorem digit_char_ne : ∀ d, d < 10 →
    Char.ofNat (48 + d) ≠ 'e' ∧ Char.ofNat (48 + d) ≠ 'E' := by decide

theorem decCharsNat_mul10 (a : ℕ) :
    decCharsNat (a * 10) 1 = natToChars a ++ ['.', '0'] := by
  unfold decCharsNat
  have h1 : a * 10 / 10 ^ 1 = a := by simp
  have h2 : a * 10 % 10 ^ 1 = 0 := by simp
  rw [h1, h2]
  have h3 : natToChars 0 = ['0'] := rfl
  simp [h3]

theorem formatFixed_one_intCast (z : ℤ) :
    formatFixed (z : ℚ) 1 =
      (if (z : ℚ) < 0 then ['-'] else []) ++ natToChars z.natAbs ++ ['.', '0'] := by
  unfold formatFixed
  have h1 : |(z : ℚ)| * 10 ^ 1 = (((z.natAbs * 10 : ℕ) : ℤ) : ℚ) := by
    push_cast
    rw [← Int.cast_abs]
    push_cast
    ring
  rw [h1, roundHalfEven_intCast]
  have h2 : (((z.natAbs * 10 : ℕ) : ℤ)).toNat = z.natAbs * 10 := Int.toNat_natCast _
  rw [h2, decCharsNat_mul10]
  simp [List.append_assoc]

/-- Model of the non-error result of MarshalJSON on an integral value. -/
theorem marshal_eq_integral (q : ℚ) (hint : (truncQ q : ℚ) = q) :
    FloatFrac.MarshalJSON (.finite q) =
      .ok ((if q < 0 then ['-'] else []) ++ natToChars q.num.natAbs ++ ['.', '0']) := by
  unfold FloatFrac.MarshalJSON
  simp only [if_pos hint]
  have ha : appendFloatF q 1 = formatFixed q 1 := by
    unfold appendFloatF
    norm_num
  rw [ha]
  obtain ⟨n, hn⟩ : ∃ n : ℤ, (n : ℚ) = q :=
    ⟨q.num, (Rat.den_eq_one_iff q).mp ((trunc_eq_self_iff q).mp hint)⟩
  rw [← hn, formatFixed_one_intCast]
  simp [Rat.num_intCast]

/-- Model of the non-error result of MarshalJSON on a non-integral value. -/
theorem marshal_eq_frac (q : ℚ) (hint : ¬ ((truncQ q : ℚ) = q)) :
    FloatFrac.MarshalJSON (.finite q) = .ok (renderDec (shortest q)) := by
  unfold FloatFrac.MarshalJSON
  simp only [if_neg hint]
  have ha : appendFloatF q (-1) = renderDec (shortest q) := by
    unfold appendFloatF
    norm_num
  rw [ha]

/-- The non-error result of MarshalJSON on an integral value is the fixed
formatting with one fractional digit. -/
theorem marshal_eq_integral0 (q : ℚ) (hint : (truncQ q : ℚ) = q) :
    FloatFrac.MarshalJSON (.finite q) = .ok (formatFixed q 1) := by
  unfold FloatFrac.MarshalJSON
  simp only [if_pos hint]
  have ha : appendFloatF q 1 = formatFixed q 1 := by
    unfold appendFloatF
    norm_num
  rw [ha]

/-- Every byte emitted by MarshalJSON is a sign, a point, or a digit. -/
theorem marshal_bytes_mem (q : ℚ) (bs : List Char)
    (h : FloatFrac.MarshalJSON (.finite q) = .ok bs) :
    ∀ ch ∈ bs, ch = '-' ∨ ch = '.' ∨ ∃ d, d < 10 ∧ ch = Char.ofNat (48 + d) := by
  intro ch hch
  by_cases hint : ((truncQ q : ℚ) = q)
  · rw [marshal_eq_integral0 q hint] at h
    injection h with h0
    rw [← h0] at hch
    exact formatFixed_mem ch q 1 hch
  · rw [marshal_eq_frac q hint] at h
    injection h with h0
    rw [← h0] at hch
    exact renderDec_mem ch _ hch

theorem num_char_ne_exp (ch : Char)
    (h : ch = '-' ∨ ch = '.' ∨ ∃ d, d < 10 ∧ ch = Char.ofNat (48 + d)) :
    ch ≠ 'e' ∧ ch ≠ 'E' := by
  rcases h with rfl | rfl | ⟨d, hd, rfl⟩
  · exact ⟨by decide, by decide⟩
  · exact ⟨by decide, by decide⟩
  · exact digit_char_ne d hd

/-! ## The claims about FloatFrac.MarshalJSON -/

/-- C1: FloatFrac.MarshalJSON returns an error if and only if its input is
NaN or positive or negative infinity; every finite input yields serialized
bytes and no error, and every non-finite input yields an error and no
bytes. -/
theorem C1_marshal_error_iff_nonfinite (f : FloatFrac) :
    ((f = .nan ∨ f = .posInf ∨ f = .negInf) → ∃ e, FloatFrac.MarshalJSON f = .error e) ∧
    (∀ q, f = .finite q → ∃ bs, FloatFrac.MarshalJSON f = .ok bs) ∧
    ((∃ e, FloatFrac.MarshalJSON f = .error e) → (f = .nan ∨ f = .posInf ∨ f = .negInf)) := by
  cases f <;> refine ⟨?_, ?_, ?_⟩ <;> simp [FloatFrac.MarshalJSON]

theorem C1_marshal_error_iff_nonfinite_witness :
    ∃ bs, FloatFrac.MarshalJSON (.finite (3 / 2)) = .ok bs :=
  (C1_marshal_error_iff_nonfinite (.finite (3 / 2))).2.1 (3 / 2) rfl

/-- C2: for every finite float64 value that is integral (truncation fixes
it), MarshalJSON emits the decimal digits of the integer with a sign for
negative values and exactly one fractional digit, a zero; in particular
the value 1 serializes to the bytes 1.0 . -/
theorem C2_marshal_integral_one_digit (q : ℚ) (hfin : IsFiniteF64 q)
    (hint : (truncQ q : ℚ) = q) :
    FloatFrac.MarshalJSON (.finite q) =
      .ok ((if q < 0 then ['-'] else []) ++ natToChars q.num.natAbs ++ ['.', '0']) :=
  marshal_eq_integral q hint

theorem C2_marshal_integral_one_digit_witness :
    IsFiniteF64 1 ∧ FloatFrac.MarshalJSON (.finite 1) = .ok ['1', '.', '0'] :=
  ⟨by decide, by
    rw [C2_marshal_integral_one_digit 1 (by decide) (by decide)]
    exact congrArg Except.ok (by decide)⟩

/-- C3: for every finite float64 input the emitted byte string contains a
decimal point and no exponent marker. -/
theorem C3_output_has_point_no_exponent (q : ℚ) (hfin : IsFiniteF64 q) :
    ∃ bs, FloatFrac.MarshalJSON (.finite q) = .ok bs ∧
      '.' ∈ bs ∧ 'e' ∉ bs ∧ 'E' ∉ bs := by
  have hmem : ∀ bs, FloatFrac.MarshalJSON (.finite q) = .ok bs →
      'e' ∉ bs ∧ 'E' ∉ bs := by
    intro bs hbs
    constructor
    · intro hc
      exact (num_char_ne_exp _ (marshal_bytes_mem q bs hbs _ hc)).1 rfl
    · intro hc
      exact (num_char_ne_exp _ (marshal_bytes_mem q bs hbs _ hc)).2 rfl
  by_cases hint : ((truncQ q : ℚ) = q)
  · refine ⟨_, marshal_eq_integral q hint, ?_, ?_, ?_⟩
    · simp
    · exact ((hmem _) (marshal_eq_integral q hint)).1
    · exact ((hmem _) (marshal_eq_integral q hint)).2
  · have hden : (shortest q).den ≠ 1 :=
      shortest_den q (fun h => hint ((trunc_eq_self_iff q).mpr h))
    refine ⟨_, marshal_eq_frac q hint, ?_, ?_, ?_⟩
    · exact renderDec_dot _ hden
    · exact ((hmem _) (marshal_eq_frac q hint)).1
    · exact ((hmem _) (marshal_eq_frac q hint)).2

theorem C3_output_has_point_no_exponent_witness :
    IsFiniteF64 (3 / 2) ∧
      ∃ bs, FloatFrac.MarshalJSON (.finite (3 / 2)) = .ok bs ∧
        '.' ∈ bs ∧ 'e' ∉ bs ∧ 'E' ∉ bs :=
  ⟨by decide, C3_output_has_point_no_exponent (3 / 2) (by decide)⟩

/-! ## The audio API model

The audio module builds a multipart form, issues one HTTP request and
decodes the reply. The form builder, the file system and the HTTP layer
are external to the sources; they are modelled by oracles that report,
for each operation, either success or an error message. The content
written to the form is recorded as a list of events. -/

/-- An HTTP header map carried on responses. -/
structure HttpHeader where
  entries : List (String × String)
deriving DecidableEq

/-- The Go zero value of an HTTP header. -/
def HttpHeader.empty : HttpHeader := ⟨[]⟩

/-- The response format constants of the audio module. -/
def AudioResponseFormatJSON : String := "json"

def AudioResponseFormatText : String := "text"

def AudioResponseFormatSRT : String := "srt"

def AudioResponseFormatVerboseJSON : String := "verbose_json"

def AudioResponseFormatVTT : String := "vtt"

/-- A Go float32 value: NaN, one of the two infinities, or a finite
value, modelled by its exact rational value. The model identifies the two
IEEE zeros, which compare equal to 0 in Go. -/
inductive GoFloat32 where
  | nan
  | posInf
  | negInf
  | finite (val : ℚ)
deriving DecidableEq

/-- The string produced for a float32 value by the verb %.2f of
fmt.Sprintf: fixed-point with two decimals for a finite value; for NaN and
the infinities the precision is ignored and the verbs print NaN, +Inf and
-Inf. -/
def fmtTwoDec (t : GoFloat32) : String :=
  match t with
  | .nan => "NaN"
  | .posInf => "+Inf"
  | .negInf => "-Inf"
  | .finite v => String.mk (formatFixed v 2)

/-- AudioRequest: the request structure for the audio API. The Reader
field of the Go structure is modelled by its only observable property,
being nil or not; Temperature is the float32 field, including the
non-finite values a caller can set on it. -/
structure AudioRequest where
  Model : String
  FilePath : String
  hasReader : Bool
  Prompt : String
  Temperature : GoFloat32
  Language : String
  Format : String
  TimestampGranularities : List String
  AudioBase64 : String
deriving DecidableEq

/-- Audio metadata extension record. -/
structure TranscriptionAudioInfo where
  Duration : ℤ
  Format : String
deriving DecidableEq

/-- Usage record; the Go field named Type is called UsageType here because
Type is reserved in Lean. -/
structure AudioResponseUsage where
  UsageType : String
  Seconds : ℤ
deriving DecidableEq

/-- A segment of the transcription response. -/
structure AudioSegment where
  ID : ℤ
  Seek : ℤ
  Start : ℚ
  End : ℚ
  Text : String
  Tokens : List ℤ
  Temperature : ℚ
  AvgLogprob : ℚ
  CompressionRatio : ℚ
  NoSpeechProb : ℚ
  Transient : Bool
  Speaker : String
  Sentiment : String
  Translation : String
deriving DecidableEq

/-- A word of the transcription response. -/
structure AudioWord where
  Word : String
  Start : ℚ
  End : ℚ
deriving DecidableEq

/-- AudioResponse: the response structure for the audio API; the embedded
httpHeader is the field named header. -/
structure AudioResponse where
  Task : String
  Language : String
  Duration : ℚ
  Segments : List AudioSegment
  Words : List AudioWord
  Text : String
  AudioInfo : Option TranscriptionAudioInfo
  Warnings : List String
  Usage : Option AudioResponseUsage
  header : HttpHeader
deriving DecidableEq

/-- The Go zero value AudioResponse with empty braces: every field at its
zero value. -/
def AudioResponse.zero : AudioResponse :=
  ⟨"", "", 0, [], [], "", none, [], none, HttpHeader.empty⟩

/-- The plain-text response wrapper. -/
structure audioTextResponse where
  Text : String
  header : HttpHeader
deriving DecidableEq

/-- ToAudioResponse: the struct literal with only the Text and httpHeader
fields set, every other field at its Go zero value. -/
def audioTextResponse.ToAudioResponse (r : audioTextResponse) : AudioResponse :=
  ⟨"", "", 0, [], [], r.Text, none, [], none, r.header⟩

/-- HasJSONResponse returns true if the response format is JSON. -/
def AudioRequest.HasJSONResponse (r : AudioRequest) : Bool :=
  r.Format == "" || r.Format == AudioResponseFormatJSON ||
    r.Format == AudioResponseFormatVerboseJSON

/-- One entry written into the multipart form. -/
inductive FormEvent where
  | fileReader (name : String) (filePath : String)
  | file (name : String) (filePath : String)
  | field (name : String) (value : String)
  | close
deriving DecidableEq

/-- The oracle for the form builder and the file system: each operation
either succeeds or yields an error message. -/
structure FormBuilderOracle where
  createFormFileReader : String → String → Option String
  osOpen : String → Option String
  createFormFile : String → Option String
  writeField : String → String → Option String
  closeErr : Option String

/-- The state threaded through form construction: the events written so
far and, once a step has failed, the error that was returned. -/
abbrev FormState := List FormEvent × Option String

/-- createFileField: write the file form field from the reader when one is
set, otherwise open the file at FilePath and write it; errors are wrapped
exactly as in the source. -/
def createFileField (request : AudioRequest) (b : FormBuilderOracle) : FormState :=
  if request.hasReader then
    match b.createFormFileReader "file" request.FilePath with
    | some e => ([], some ("creating form using reader: " ++ e))
    | none => ([FormEvent.fileReader "file" request.FilePath], none)
  else
    match b.osOpen request.FilePath with
    | some e => ([], some ("opening audio file: " ++ e))
    | none =>
      match b.createFormFile request.FilePath with
      | some e => ([], some ("creating form file: " ++ e))
      | none => ([FormEvent.file "file" request.FilePath], none)

/-- One WriteField call with its error wrap; an already failed state is
passed through, which models the early return in the source. -/
def writeFieldStep (b : FormBuilderOracle) (s : FormState)
    (name value wrap : String) : FormState :=
  match s with
  | (tr, some e) => (tr, some e)
  | (tr, none) =>
    match b.writeField name value with
    | some e => (tr, some (wrap ++ e))
    | none => (tr ++ [FormEvent.field name value], none)

/-- The loop writing one timestamp_granularities field per element. -/
def writeGranularities (b : FormBuilderOracle) :
    List String → FormState → FormState
  | [], s => s
  | tg :: rest, s =>
    writeGranularities b rest
      (writeFieldStep b s "timestamp_granularities[]" tg
        "writing timestamp_granularities[]: ")

/-- The final Close call on the multipart writer; its error is returned
unwrapped. -/
def closeStep (b : FormBuilderOracle) (s : FormState) : FormState :=
  match s with
  | (tr, some e) => (tr, some e)
  | (tr, none) =>
    match b.closeErr with
    | some e => (tr, some e)
    | none => (tr ++ [FormEvent.close], none)

/-- audioMultipartForm: the file field, then model, then the optional
prompt, response_format, temperature (printed with two decimals),
language, the timestamp granularities in order, and the closing of the
writer. -/
def audioMultipartForm (request : AudioRequest) (b : FormBuilderOracle) : FormState :=
  match createFileField request b with
  | (tr, some e) => (tr, some e)
  | (tr, none) =>
    let s := writeFieldStep b (tr, none) "model" request.Model "writing model name: "
    let s := if request.Prompt ≠ "" then
        writeFieldStep b s "prompt" request.Prompt "writing prompt: " else s
    let s := if request.Format ≠ "" then
        writeFieldStep b s "response_format" request.Format "writing format: " else s
    let s := if request.Temperature ≠ GoFloat32.finite 0 then
        writeFieldStep b s "temperature" (fmtTwoDec request.Temperature)
          "writing temperature: " else s
    let s := if request.Language ≠ "" then
        writeFieldStep b s "language" request.Language "writing language: " else s
    let s := writeGranularities b request.TimestampGranularities s
    closeStep b s

/-- The oracle for the shared HTTP helper: whether building the request
fails, and the decoded result of sending it on each of the two decode
paths. -/
structure HttpOracle where
  newRequestErr : String → String → Option String
  sendJSON : Except String AudioResponse
  sendText : Except String audioTextResponse

/-- The client: the form builder produced by createFormBuilder together
with the HTTP helper. -/
structure Client where
  builder : FormBuilderOracle
  http : HttpOracle

/-- The URL suffix built by callAudioAPI. -/
def urlSuffixOf (endpointSuffix : String) : String := "/audio/" ++ endpointSuffix

/-- callAudioAPI: build the form, build the request on the audio endpoint
for the given suffix, then decode through the structured path when
HasJSONResponse holds and through the plain-text path otherwise; every
error is returned with the zero AudioResponse. -/
def callAudioAPI (c : Client) (request : AudioRequest)
    (endpointSuffix : String) : AudioResponse × Option String :=
  match audioMultipartForm request c.builder with
  | (_, some e) => (AudioResponse.zero, some e)
  | (_, none) =>
    match c.http.newRequestErr (urlSuffixOf endpointSuffix) request.Model with
    | some e => (AudioResponse.zero, some e)
    | none =>
      if request.HasJSONResponse then
        match c.http.sendJSON with
        | .error e => (AudioResponse.zero, some e)
        | .ok resp => (resp, none)
      else
        match c.http.sendText with
        | .error e => (AudioResponse.zero, some e)
        | .ok t => (t.ToAudioResponse, none)

/-- CreateTranscription: API call to create a transcription. -/
def CreateTranscription (c : Client) (request : AudioRequest) :
    AudioResponse × Option String :=
  callAudioAPI c request "transcriptions"

/-- CreateTranslation: API call to translate audio into English. -/
def CreateTranslation (c : Client) (request : AudioRequest) :
    AudioResponse × Option String :=
  callAudioAPI c request "translations"

/-- The event written for the file field. -/
def fileEvent (r : AudioRequest) : FormEvent :=
  if r.hasReader then FormEvent.fileReader "file" r.FilePath
  else FormEvent.file "file" r.FilePath

/-- The full order of events a successful form construction writes. -/
def formPlan (r : AudioRequest) : List FormEvent :=
  [fileEvent r, FormEvent.field "model" r.Model] ++
  (if r.Prompt ≠ "" then [FormEvent.field "prompt" r.Prompt] else []) ++
  (if r.Format ≠ "" then [FormEvent.field "response_format" r.Format] else []) ++
  (if r.Temperature ≠ GoFloat32.finite 0 then
    [FormEvent.field "temperature" (fmtTwoDec r.Temperature)] else []) ++
  (if r.Language ≠ "" then [FormEvent.field "language" r.Language] else []) ++
  (r.TimestampGranularities.map (fun tg => FormEvent.field "timestamp_granularities[]" tg)) ++
  [FormEvent.close]

/-! ## Trace correctness of the multipart form construction -/

/-- A form-building step is faithful to a list of events when it passes a
failed state through unchanged and, from a clean state, either appends
exactly those events or fails having appended a proper prefix of them. -/
def StepOK (f : FormState → FormState) (evs : List FormEvent) : Prop :=
  (∀ tr e, f (tr, some e) = (tr, some e)) ∧
  (∀ tr, f (tr, none) = (tr ++ evs, none) ∨
    ∃ n e2, n < evs.length ∧ f (tr, none) = (tr ++ evs.take n, some e2))

theorem stepOK_write (b : FormBuilderOracle) (name value wrap : String) :
    StepOK (fun s => writeFieldStep b s name value wrap)
      [FormEvent.field name value] := by
  constructor
  · intro tr e
    rfl
  · intro tr
    unfold writeFieldStep
    cases hw : b.writeField name value with
    | some e =>
      right
      exact ⟨0, wrap ++ e, by simp, by simp⟩
    | none =>
      left
      simp

theorem stepOK_close (b : FormBuilderOracle) :
    StepOK (closeStep b) [FormEvent.close] := by
  constructor
  · intro tr e
    rfl
  · intro tr
    unfold closeStep
    cases hw : b.closeErr with
    | some e =>
      right
      exact ⟨0, e, by simp, by simp⟩
    | none =>
      left
      simp

theorem stepOK_comp (f g : FormState → FormState) (evs1 evs2 : List FormEvent)
    (hf : StepOK f evs1) (hg : StepOK g evs2) :
    StepOK (fun s => g (f s)) (evs1 ++ evs2) := by
  constructor
  · intro tr e
    show g (f (tr, some e)) = (tr, some e)
    rw [hf.1 tr e, hg.1 tr e]
  · intro tr
    rcases hf.2 tr with h1 | ⟨n, e2, hn, h1⟩
    · rcases hg.2 (tr ++ evs1) with h2 | ⟨m, e3, hm, h2⟩
      · left
        show g (f (tr, none)) = (tr ++ (evs1 ++ evs2), none)
        rw [h1, h2, List.append_assoc]
      · right
        refine ⟨evs1.length + m, e3, by simp; omega, ?_⟩
        show g (f (tr, none)) = (tr ++ (evs1 ++ evs2).take (evs1.length + m), some e3)
        rw [h1, h2, List.take_append, List.append_assoc]
    · right
      refine ⟨n, e2, by simp; omega, ?_⟩
      show g (f (tr, none)) = (tr ++ (evs1 ++ evs2).take n, some e2)
      rw [h1, hg.1, List.take_append_of_le_length (by omega)]

theorem stepOK_cond (c : Prop) [Decidable c] (f : FormState → FormState)
    (evs : List FormEvent) (hf : StepOK f evs) :
    StepOK (fun s => if c then f s else s) (if c then evs else []) := by
  split_ifs with hc
  · exact hf
  · constructor
    · intro tr e
      rfl
    · intro tr
      left
      simp

theorem stepOK_grans (b : FormBuilderOracle) (l : List String) :
    StepOK (writeGranularities b l)
      (l.map (fun tg => FormEvent.field "timestamp_granularities[]" tg)) := by
  induction l with
  | nil =>
    constructor
    · intro tr e
      rfl
    · intro tr
      left
      simp [writeGranularities]
  | cons tg rest ih =>
    have hw := stepOK_write b "timestamp_granularities[]" tg
      "writing timestamp_granularities[]: "
    have := stepOK_comp _ _ _ _ hw ih
    constructor
    · intro tr e
      exact this.1 tr e
    · intro tr
      exact this.2 tr

/-- Conditional application of a form step, as the if statements guarding
the optional fields. -/
def stepCond (c : Prop) [Decidable c] (f : FormState → FormState) :
    FormState → FormState := fun s => if c then f s else s

theorem stepOK_stepCond (c : Prop) [Decidable c] (f : FormState → FormState)
    (evs : List FormEvent) (hf : StepOK f evs) :
    StepOK (stepCond c f) (if c then evs else []) := by
  unfold stepCond
  split_ifs with hc
  · exact hf
  · constructor
    · intro tr e
      rfl
    · intro tr
      left
      simp

/-- The events of the plan after the file field. -/
def formPlanTail (r : AudioRequest) (b : FormBuilderOracle) :
    FormState → FormState := fun s =>
  closeStep b
    (writeGranularities b r.TimestampGranularities
      (stepCond (r.Language ≠ "")
        (fun s => writeFieldStep b s "language" r.Language "writing language: ")
        (stepCond (r.Temperature ≠ GoFloat32.finite 0)
          (fun s => writeFieldStep b s "temperature"
            (fmtTwoDec r.Temperature) "writing temperature: ")
          (stepCond (r.Format ≠ "")
            (fun s => writeFieldStep b s "response_format" r.Format "writing format: ")
            (stepCond (r.Prompt ≠ "")
              (fun s => writeFieldStep b s "prompt" r.Prompt "writing prompt: ")
              (writeFieldStep b s "model" r.Model "writing model name: "))))))

theorem audioMultipartForm_as_tail (r : AudioRequest) (b : FormBuilderOracle) :
    audioMultipartForm r b =
      (match createFileField r b with
        | (tr, some e) => (tr, some e)
        | (tr, none) => formPlanTail r b (tr, none)) := rfl

theorem stepOK_tail (r : AudioRequest) (b : FormBuilderOracle) :
    StepOK (formPlanTail r b)
      ([FormEvent.field "model" r.Model] ++
        (if r.Prompt ≠ "" then [FormEvent.field "prompt" r.Prompt] else []) ++
        (if r.Format ≠ "" then [FormEvent.field "response_format" r.Format] else []) ++
        (if r.Temperature ≠ GoFloat32.finite 0 then
          [FormEvent.field "temperature" (fmtTwoDec r.Temperature)]
        else []) ++
        (if r.Language ≠ "" then [FormEvent.field "language" r.Language] else []) ++
        (r.TimestampGranularities.map
          (fun tg => FormEvent.field "timestamp_granularities[]" tg)) ++
        [FormEvent.close]) := by
  have h1 := stepOK_write b "model" r.Model "writing model name: "
  have h2 := stepOK_stepCond (r.Prompt ≠ "") _ _
    (stepOK_write b "prompt" r.Prompt "writing prompt: ")
  have h3 := stepOK_stepCond (r.Format ≠ "") _ _
    (stepOK_write b "response_format" r.Format "writing format: ")
  have h4 := stepOK_stepCond (r.Temperature ≠ GoFloat32.finite 0) _ _
    (stepOK_write b "temperature" (fmtTwoDec r.Temperature)
      "writing temperature: ")
  have h5 := stepOK_stepCond (r.Language ≠ "") _ _
    (stepOK_write b "language" r.Language "writing language: ")
  have h6 := stepOK_grans b r.TimestampGranularities
  have h7 := stepOK_close b
  have hcomp := stepOK_comp _ _ _ _
    (stepOK_comp _ _ _ _
      (stepOK_comp _ _ _ _
        (stepOK_comp _ _ _ _
          (stepOK_comp _ _ _ _ (stepOK_comp _ _ _ _ h1 h2) h3) h4) h5) h6) h7
  exact hcomp

theorem formPlan_eq_cons (r : AudioRequest) :
    formPlan r = fileEvent r ::
      ([FormEvent.field "model" r.Model] ++
        (if r.Prompt ≠ "" then [FormEvent.field "prompt" r.Prompt] else []) ++
        (if r.Format ≠ "" then [FormEvent.field "response_format" r.Format] else []) ++
        (if r.Temperature ≠ GoFloat32.finite 0 then
          [FormEvent.field "temperature" (fmtTwoDec r.Temperature)]
        else []) ++
        (if r.Language ≠ "" then [FormEvent.field "language" r.Language] else []) ++
        (r.TimestampGranularities.map
          (fun tg => FormEvent.field "timestamp_granularities[]" tg)) ++
        [FormEvent.close]) := by
  unfold formPlan
  simp [List.append_assoc]

theorem createFileField_spec (r : AudioRequest) (b : FormBuilderOracle) :
    createFileField r b = ([fileEvent r], none) ∨
      ∃ e, createFileField r b = ([], some e) := by
  unfold createFileField fileEvent
  by_cases hr : r.hasReader
  · simp only [hr, if_true]
    cases b.createFormFileReader "file" r.FilePath with
    | some e => exact Or.inr ⟨_, rfl⟩
    | none => exact Or.inl rfl
  · simp only [hr, if_false, Bool.false_eq_true]
    cases b.osOpen r.FilePath with
    | some e => exact Or.inr ⟨_, rfl⟩
    | none =>
      cases b.createFormFile r.FilePath with
      | some e => exact Or.inr ⟨_, rfl⟩
      | none => exact Or.inl rfl

/-- The central trace lemma: a run of audioMultipartForm either succeeds
writing exactly the planned events, or fails having written a proper
prefix of the plan. -/
theorem audioMultipartForm_spec (r : AudioRequest) (b : FormBuilderOracle) :
    audioMultipartForm r b = (formPlan r, none) ∨
      ∃ n e, n < (formPlan r).length ∧
        audioMultipartForm r b = ((formPlan r).take n, some e) := by
  rw [audioMultipartForm_as_tail]
  rcases createFileField_spec r b with hcf | ⟨e, hcf⟩
  · rw [hcf]
    simp only
    rcases (stepOK_tail r b).2 [fileEvent r] with h | ⟨n, e2, hn, h⟩
    · left
      rw [h, formPlan_eq_cons]
      rfl
    · right
      refine ⟨n + 1, e2, ?_, ?_⟩
      · rw [formPlan_eq_cons]
        simp only [List.length_cons]
        omega
      · rw [h, formPlan_eq_cons]
        rfl
  · rw [hcf]
    simp only
    right
    refine ⟨0, e, ?_, by simp⟩
    rw [formPlan_eq_cons]
    simp

/-! ## The temperature field carries exactly two decimal places -/

theorem digitsAux_ne_nil (b fuel n : ℕ) (h : n ≠ 0) :
    digitsAux b (fuel + 1) n ≠ [] := by
  unfold digitsAux
  simp [h]

theorem natToChars_ne_nil (n : ℕ) : natToChars n ≠ [] := by
  unfold natToChars
  by_cases h : n = 0
  · simp [h]
  · simp only [h, if_false]
    intro hc
    simp only [List.map_eq_nil_iff, List.reverse_eq_nil_iff] at hc
    have h4 : (4000 : ℕ) = 3999 + 1 := by norm_num
    unfold natDigits at hc
    rw [h4] at hc
    exact digitsAux_ne_nil 10 3999 n h hc

theorem digitsAux_length_le (fuel : ℕ) :
    ∀ n k, n < 10 ^ k → (digitsAux 10 fuel n).length ≤ k := by
  induction fuel with
  | zero =>
    intro n k _
    simp [digitsAux]
  | succ f ih =>
    intro n k hn
    unfold digitsAux
    by_cases h0 : n = 0
    · simp [h0]
    · simp only [h0, if_false, List.length_cons]
      cases k with
      | zero =>
        exfalso
        simp at hn
        omega
      | succ k2 =>
        have hdiv : n / 10 < 10 ^ k2 := by
          apply Nat.div_lt_of_lt_mul
          rw [pow_succ] at hn
          omega
        have := ih (n / 10) k2 hdiv
        omega

theorem natToChars_length_le (n k : ℕ) (hk : 0 < k) (hn : n < 10 ^ k) :
    (natToChars n).length ≤ k := by
  unfold natToChars
  by_cases h : n = 0
  · simp [h]
    omega
  · simp only [h, if_false, List.length_map, List.length_reverse]
    exact digitsAux_length_le 4000 n k hn

theorem digit_char_ne_dot : ∀ d, d < 10 → Char.ofNat (48 + d) ≠ '.' := by decide

theorem formatFixed_two_dec (q : ℚ) :
    ∃ a d₁ d₂, formatFixed q 2 = a ++ ['.', d₁, d₂] ∧
      (∃ d, d < 10 ∧ d₁ = Char.ofNat (48 + d)) ∧
      (∃ d, d < 10 ∧ d₂ = Char.ofNat (48 + d)) ∧ '.' ∉ a := by
  unfold formatFixed decCharsNat
  have hL1 : 1 ≤ (natToChars ((roundHalfEven (|q| * 10 ^ 2)).toNat % 10 ^ 2)).length :=
    List.length_pos.mpr (natToChars_ne_nil _)
  have hL2 : (natToChars ((roundHalfEven (|q| * 10 ^ 2)).toNat % 10 ^ 2)).length ≤ 2 :=
    natToChars_length_le _ 2 (by norm_num) (Nat.mod_lt _ (by norm_num))
  have hflen : (List.replicate
        (2 - (natToChars ((roundHalfEven (|q| * 10 ^ 2)).toNat % 10 ^ 2)).length) '0' ++
      natToChars ((roundHalfEven (|q| * 10 ^ 2)).toNat % 10 ^ 2)).length = 2 := by
    simp only [List.length_append, List.length_replicate]
    omega
  obtain ⟨d₁, d₂, hd⟩ := List.length_eq_two.mp hflen
  refine ⟨(if q < 0 then ['-'] else []) ++
    natToChars ((roundHalfEven (|q| * 10 ^ 2)).toNat / 10 ^ 2), d₁, d₂, ?_, ?_, ?_, ?_⟩
  · rw [if_neg (by norm_num : ¬ (2 : ℕ) = 0), hd]
    simp [List.append_assoc]
  · have hm : d₁ ∈ List.replicate
        (2 - (natToChars ((roundHalfEven (|q| * 10 ^ 2)).toNat % 10 ^ 2)).length) '0' ++
        natToChars ((roundHalfEven (|q| * 10 ^ 2)).toNat % 10 ^ 2) := by
      rw [hd]
      simp
    rcases List.mem_append.mp hm with h | h
    · have := List.eq_of_mem_replicate h
      exact ⟨0, by norm_num, by simp [this]⟩
    · exact natToChars_mem _ _ h
  · have hm : d₂ ∈ List.replicate
        (2 - (natToChars ((roundHalfEven (|q| * 10 ^ 2)).toNat % 10 ^ 2)).length) '0' ++
        natToChars ((roundHalfEven (|q| * 10 ^ 2)).toNat % 10 ^ 2) := by
      rw [hd]
      simp
    rcases List.mem_append.mp hm with h | h
    · have := List.eq_of_mem_replicate h
      exact ⟨0, by norm_num, by simp [this]⟩
    · exact natToChars_mem _ _ h
  · intro hc
    rcases List.mem_append.mp hc with h | h
    · split at h
      · have h2 := List.mem_singleton.mp h
        exact absurd h2 (by decide)
      · simp at h
    · obtain ⟨d, hd10, hdd⟩ := natToChars_mem _ _ h
      exact digit_char_ne_dot d hd10 hdd.symm

theorem mem_ite_singleton {α : Type} (c : Prop) [Decidable c] (x ev : α)
    (h : ev ∈ (if c then [x] else [])) : c ∧ ev = x := by
  split at h
  · exact ⟨by assumption, List.mem_singleton.mp h⟩
  · simp at h

theorem formPlan_temperature_mem (r : AudioRequest) (v : String)
    (h : FormEvent.field "temperature" v ∈ formPlan r) :
    r.Temperature ≠ GoFloat32.finite 0 ∧ v = fmtTwoDec r.Temperature := by
  unfold formPlan at h
  rcases List.mem_append.mp h with h | hclose
  · rcases List.mem_append.mp h with h | hgr
    · rcases List.mem_append.mp h with h | hl
      · rcases List.mem_append.mp h with h | ht
        · rcases List.mem_append.mp h with h | hf
          · rcases List.mem_append.mp h with hfm | hp
            · rcases List.mem_cons.mp hfm with h1 | h1
              · exfalso
                revert h1
                unfold fileEvent
                split <;> simp
              · rcases List.mem_cons.mp h1 with h2 | h2
                · injection h2 with hn hv
                  exact absurd hn (by decide)
                · simp at h2
            · have h3 := mem_ite_singleton _ _ _ hp
              injection h3.2 with hn hv
              exact absurd hn (by decide)
          · have h3 := mem_ite_singleton _ _ _ hf
            injection h3.2 with hn hv
            exact absurd hn (by decide)
        · have h3 := mem_ite_singleton _ _ _ ht
          injection h3.2 with hn hv
          exact ⟨h3.1, hv⟩
      · have h3 := mem_ite_singleton _ _ _ hl
        injection h3.2 with hn hv
        exact absurd hn (by decide)
    · obtain ⟨tg, _, heq⟩ := List.mem_map.mp hgr
      injection heq with hn hv
      exact absurd hn (by decide)
  · have h3 := List.mem_singleton.mp hclose
    exact absurd h3 (by simp)

/-! ## Sample oracles used to exercise the claims on concrete runs -/

/-- A builder oracle on which every operation succeeds. -/
def okBuilder : FormBuilderOracle :=
  ⟨fun _ _ => none, fun _ => none, fun _ => none, fun _ _ => none, none⟩

/-- A sample decoded plain-text response. -/
def sampleTextResponse : audioTextResponse := ⟨"hello", HttpHeader.empty⟩

/-- A client on which everything succeeds. -/
def okClient : Client :=
  ⟨okBuilder, ⟨fun _ _ => none, Except.ok AudioResponse.zero,
    Except.ok sampleTextResponse⟩⟩

/-- A client that differs from okClient only in the plain-text decode
result. -/
def altClient : Client :=
  ⟨okBuilder, ⟨fun _ _ => none, Except.ok AudioResponse.zero,
    Except.error "down"⟩⟩

/-- A client whose structured decode fails. -/
def errClient : Client :=
  ⟨okBuilder, ⟨fun _ _ => none, Except.error "bad json",
    Except.ok sampleTextResponse⟩⟩

/-- A sample request with unset Format and zero Temperature. -/
def sampleRequest : AudioRequest :=
  ⟨"whisper-1", "a.mp3", true, "", GoFloat32.finite 0, "", "", [], ""⟩

/-- A sample request asking for the plain-text format. -/
def textRequest : AudioRequest :=
  ⟨"whisper-1", "a.mp3", true, "", GoFloat32.finite 0, "", "text", [], ""⟩

/-- A sample request whose float32 temperature is NaN; in Go NaN != 0
holds, so the temperature field is written. -/
def nanRequest : AudioRequest :=
  ⟨"whisper-1", "a.mp3", true, "", GoFloat32.nan, "", "", [], ""⟩

/-! ## The claims about the audio module -/

/-- C5: the decode path of callAudioAPI is selected solely by the Format
field: HasJSONResponse holds exactly for the empty string, json and
verbose_json, it depends only on Format, and two clients that agree on
everything the taken path uses produce the same call result. -/
theorem C5_decode_path_selection (r : AudioRequest) :
    (r.HasJSONResponse = true ↔
      (r.Format = "" ∨ r.Format = "json" ∨ r.Format = "verbose_json")) ∧
    (∀ r2 : AudioRequest, r2.Format = r.Format →
      r2.HasJSONResponse = r.HasJSONResponse) ∧
    (∀ c c2 : Client, c.builder = c2.builder →
      c.http.newRequestErr = c2.http.newRequestErr →
      c.http.sendJSON = c2.http.sendJSON →
      r.HasJSONResponse = true →
      ∀ s, callAudioAPI c r s = callAudioAPI c2 r s) ∧
    (∀ c c2 : Client, c.builder = c2.builder →
      c.http.newRequestErr = c2.http.newRequestErr →
      c.http.sendText = c2.http.sendText →
      r.HasJSONResponse = false →
      ∀ s, callAudioAPI c r s = callAudioAPI c2 r s) := by
  refine ⟨?_, ?_, ?_, ?_⟩
  · simp only [AudioRequest.HasJSONResponse, AudioResponseFormatJSON,
      AudioResponseFormatVerboseJSON, Bool.or_eq_true, beq_iff_eq]
    tauto
  · intro r2 h
    unfold AudioRequest.HasJSONResponse
    rw [h]
  · intro c c2 hb hn hj hjson s
    obtain ⟨b1, n1, j1, t1⟩ := c
    obtain ⟨b2, n2, j2, t2⟩ := c2
    simp only at hb hn hj
    subst hb
    subst hn
    subst hj
    unfold callAudioAPI
    simp only [hjson, if_true]
  · intro c c2 hb hn ht hjson s
    obtain ⟨b1, n1, j1, t1⟩ := c
    obtain ⟨b2, n2, j2, t2⟩ := c2
    simp only at hb hn ht
    subst hb
    subst hn
    subst ht
    unfold callAudioAPI
    simp only [hjson, Bool.false_eq_true, if_false]

theorem C5_decode_path_selection_witness :
    callAudioAPI okClient sampleRequest "transcriptions" =
      callAudioAPI altClient sampleRequest "transcriptions" :=
  (C5_decode_path_selection sampleRequest).2.2.1 okClient altClient rfl rfl rfl
    (by decide) "transcriptions"

/-- C6: on the plain-text path the decoded text is normalized through
ToAudioResponse: the call returns exactly that response with no error, its
Text is the decoded text, its header is carried over, and every remaining
field is the Go zero value. -/
theorem C6_text_path_normalization (c : Client) (r : AudioRequest) (s : String)
    (t : audioTextResponse)
    (hfmt : r.HasJSONResponse = false)
    (hform : (audioMultipartForm r c.builder).2 = none)
    (hreq : c.http.newRequestErr (urlSuffixOf s) r.Model = none)
    (hsend : c.http.sendText = Except.ok t) :
    callAudioAPI c r s = (t.ToAudioResponse, none) ∧
    t.ToAudioResponse.Text = t.Text ∧
    t.ToAudioResponse.header = t.header ∧
    t.ToAudioResponse.Task = "" ∧
    t.ToAudioResponse.Language = "" ∧
    t.ToAudioResponse.Duration = 0 ∧
    t.ToAudioResponse.Segments = [] ∧
    t.ToAudioResponse.Words = [] ∧
    t.ToAudioResponse.AudioInfo = none ∧
    t.ToAudioResponse.Warnings = [] ∧
    t.ToAudioResponse.Usage = none := by
  refine ⟨?_, rfl, rfl, rfl, rfl, rfl, rfl, rfl, rfl, rfl, rfl⟩
  unfold callAudioAPI
  rcases hm : audioMultipartForm r c.builder with ⟨tr, err⟩
  rw [hm] at hform
  simp only at hform
  subst hform
  simp only
  rw [hreq]
  simp only [hfmt, Bool.false_eq_true, if_false, hsend]

theorem C6_text_path_normalization_witness :
    callAudioAPI okClient textRequest "transcriptions" =
      (sampleTextResponse.ToAudioResponse, none) :=
  (C6_text_path_normalization okClient textRequest "transcriptions"
    sampleTextResponse (by decide) (by decide) rfl rfl).1

/-- C7, corrected: a successful run of audioMultipartForm writes exactly
the file field, the model field, the optional prompt, response_format,
temperature, language fields, one timestamp granularity field per list
element in order, and the closing marker; a failed run returns the error
having written a proper prefix of that plan. The temperature value is the
%.2f rendering of the float32 field; it carries exactly two decimal
places whenever the temperature is finite. The two-decimal clause of the
original claim fails for non-finite temperatures, which in Go compare not
equal to zero and are printed by %.2f as NaN, +Inf or -Inf; see the
counterexample. -/
theorem C7_form_field_order (r : AudioRequest) (b : FormBuilderOracle) :
    ((audioMultipartForm r b).2 = none → (audioMultipartForm r b).1 = formPlan r) ∧
    (∀ e, (audioMultipartForm r b).2 = some e →
      ∃ n, n < (formPlan r).length ∧
        (audioMultipartForm r b).1 = (formPlan r).take n) ∧
    (∀ v, FormEvent.field "temperature" v ∈ formPlan r →
      v = fmtTwoDec r.Temperature ∧
      ∀ qT : ℚ, r.Temperature = GoFloat32.finite qT →
        ∃ a d₁ d₂, v.data = a ++ ['.', d₁, d₂] ∧
          (∃ d, d < 10 ∧ d₁ = Char.ofNat (48 + d)) ∧
          (∃ d, d < 10 ∧ d₂ = Char.ofNat (48 + d)) ∧ '.' ∉ a) := by
  refine ⟨?_, ?_, ?_⟩
  · intro h
    rcases audioMultipartForm_spec r b with hs | ⟨n, e, _, hs⟩
    · rw [hs]
    · rw [hs] at h
      simp at h
  · intro e he
    rcases audioMultipartForm_spec r b with hs | ⟨n, e2, hn, hs⟩
    · rw [hs] at he
      simp at he
    · exact ⟨n, hn, by rw [hs]⟩
  · intro v hv
    obtain ⟨_, hveq⟩ := formPlan_temperature_mem r v hv
    refine ⟨hveq, ?_⟩
    intro qT hq
    rw [hveq, hq]
    exact formatFixed_two_dec qT

theorem C7_form_field_order_witness :
    (audioMultipartForm sampleRequest okBuilder).2 = none ∧
      (audioMultipartForm sampleRequest okBuilder).1 = formPlan sampleRequest :=
  ⟨by decide, (C7_form_field_order sampleRequest okBuilder).1 (by decide)⟩

/-- Counterexample to the two-decimal clause of the original C7: a NaN
temperature compares not equal to zero, so the temperature field is
written, and its value NaN contains no decimal point at all, hence no two
decimal places. -/
theorem C7_two_decimal_counterexample :
    (audioMultipartForm nanRequest okBuilder).2 = none ∧
    FormEvent.field "temperature" "NaN" ∈ (audioMultipartForm nanRequest okBuilder).1 ∧
    '.' ∉ ("NaN" : String).data :=
  ⟨by decide, by decide, by decide⟩

/-- C8: CreateTranscription and CreateTranslation are definitionally
callAudioAPI at the two endpoint suffixes, and the URL suffixes they
produce differ only in that suffix. -/
theorem C8_endpoints_delegate (c : Client) (r : AudioRequest) :
    CreateTranscription c r = callAudioAPI c r "transcriptions" ∧
    CreateTranslation c r = callAudioAPI c r "translations" ∧
    urlSuffixOf "transcriptions" = "/audio/transcriptions" ∧
    urlSuffixOf "translations" = "/audio/translations" :=
  ⟨rfl, rfl, rfl, rfl⟩

/-- C9: whenever callAudioAPI returns an error, the response paired with
it is exactly the zero AudioResponse. -/
theorem C9_error_returns_zero_response (c : Client) (r : AudioRequest)
    (s : String) (resp : AudioResponse) (e : String)
    (h : callAudioAPI c r s = (resp, some e)) : resp = AudioResponse.zero := by
  unfold callAudioAPI at h
  split at h
  · injection h with h1 h2
    exact h1.symm
  · split at h
    · injection h with h1 h2
      exact h1.symm
    · split at h
      · split at h
        · injection h with h1 h2
          exact h1.symm
        · injection h with h1 h2
          exact absurd h2 (by simp)
      · split at h
        · injection h with h1 h2
          exact h1.symm
        · injection h with h1 h2
          exact absurd h2 (by simp)

theorem C9_error_returns_zero_response_witness :
    (callAudioAPI errClient sampleRequest "transcriptions").1 = AudioResponse.zero :=
  C9_error_returns_zero_response errClient sampleRequest "transcriptions"
    (callAudioAPI errClient sampleRequest "transcriptions").1 "bad json" (by decide)

/-- C10: a request whose Temperature is the zero value causes no
temperature field at all to be written to the form. -/
theorem C10_zero_temperature_never_written (r : AudioRequest)
    (b : FormBuilderOracle) (h0 : r.Temperature = GoFloat32.finite 0) :
    ∀ v, FormEvent.field "temperature" v ∉ (audioMultipartForm r b).1 := by
  intro v hv
  have hmem : FormEvent.field "temperature" v ∈ formPlan r := by
    rcases audioMultipartForm_spec r b with hs | ⟨n, e, _, hs⟩
    · rw [hs] at hv
      exact hv
    · rw [hs] at hv
      exact List.take_subset n _ hv
  exact (formPlan_temperature_mem r v hmem).1 h0

theorem C10_zero_temperature_never_written_witness :
    FormEvent.field "temperature" "0.00" ∉
      (audioMultipartForm sampleRequest okBuilder).1 :=
  C10_zero_temperature_never_written sampleRequest okBuilder (by decide) "0.00"

/-! ## Bounds for the fuel-based logarithms -/

theorem pow_natLogAux_le (b : ℕ) (hb : 1 < b) :
    ∀ fuel n, 1 ≤ n → b ^ natLogAux b fuel n ≤ n := by
  intro fuel
  induction fuel with
  | zero =>
    intro n hn
    simpa [natLogAux] using hn
  | succ f ih =>
    intro n hn
    unfold natLogAux
    by_cases h : b ≤ n
    · simp only [h, if_true]
      have hdiv : 1 ≤ n / b := (Nat.one_le_div_iff (by omega)).mpr h
      have := ih (n / b) hdiv
      calc b ^ (natLogAux b f (n / b) + 1) = b ^ natLogAux b f (n / b) * b := by ring
        _ ≤ n / b * b := by exact Nat.mul_le_mul_right b this
        _ ≤ n := Nat.div_mul_le_self n b
    · simp only [h, if_false]
      simpa using hn

theorem natLogAux_lt_fuel_upper (b : ℕ) (hb : 1 < b) :
    ∀ fuel n, natLogAux b fuel n < fuel → n < b ^ (natLogAux b fuel n + 1) := by
  intro fuel
  induction fuel with
  | zero =>
    intro n h
    simp [natLogAux] at h
  | succ f ih =>
    intro n h
    unfold natLogAux at h ⊢
    by_cases hc : b ≤ n
    · simp only [hc, if_true] at h ⊢
      have h2 : natLogAux b f (n / b) < f := by omega
      have h3 := ih (n / b) h2
      have h4 : n / b + 1 ≤ b ^ (natLogAux b f (n / b) + 1) := h3
      calc n < (n / b + 1) * b := by
              have hdm := Nat.div_add_mod n b
              have hml := Nat.mod_lt n (show 0 < b by omega)
              have hr : (n / b + 1) * b = b * (n / b) + b := by ring
              omega
        _ ≤ b ^ (natLogAux b f (n / b) + 1) * b := Nat.mul_le_mul_right b h4
        _ = b ^ (natLogAux b f (n / b) + 1 + 1) := by ring
    · rw [if_neg hc]
      rw [zero_add, pow_one]
      omega

theorem natLogAux_le_of_lt_pow (b : ℕ) (hb : 1 < b) :
    ∀ fuel n k, n < b ^ (k + 1) → natLogAux b fuel n ≤ k := by
  intro fuel
  induction fuel with
  | zero =>
    intro n k _
    simp [natLogAux]
  | succ f ih =>
    intro n k hn
    unfold natLogAux
    by_cases hc : b ≤ n
    · simp only [hc, if_true]
      cases k with
      | zero =>
        exfalso
        simp at hn
        omega
      | succ k2 =>
        have hdiv : n / b < b ^ (k2 + 1) := by
          apply Nat.div_lt_of_lt_mul
          rw [pow_succ] at hn
          calc n < b ^ (k2 + 1) * b := hn
            _ = b * b ^ (k2 + 1) := by ring
        have := ih (n / b) k2 hdiv
        omega
    · simp only [hc, if_false]
      exact Nat.zero_le _

theorem natLogAux_mono (b : ℕ) :
    ∀ fuel n n2, n ≤ n2 → natLogAux b fuel n ≤ natLogAux b fuel n2 := by
  intro fuel
  induction fuel with
  | zero =>
    intro n n2 _
    simp [natLogAux]
  | succ f ih =>
    intro n n2 h
    unfold natLogAux
    by_cases hc : b ≤ n
    · have hc2 : b ≤ n2 := le_trans hc h
      simp only [hc, hc2, if_true]
      have := ih (n / b) (n2 / b) (Nat.div_le_div_right h)
      omega
    · simp only [hc, if_false]
      exact Nat.zero_le _

theorem le_pow_natClogAux (b : ℕ) (hb : 1 < b) :
    ∀ fuel n, natClogAux b fuel n < fuel → n ≤ b ^ natClogAux b fuel n := by
  intro fuel
  induction fuel with
  | zero =>
    intro n h
    simp [natClogAux] at h
  | succ f ih =>
    intro n h
    unfold natClogAux at h ⊢
    by_cases hc : 2 ≤ n
    · simp only [hc, if_true] at h ⊢
      have h2 : natClogAux b f ((n + b - 1) / b) < f := by omega
      have h3 := ih ((n + b - 1) / b) h2
      have h4 : n ≤ ((n + b - 1) / b) * b := by
        have hdm := Nat.div_add_mod (n + b - 1) b
        have hml := Nat.mod_lt (n + b - 1) (show 0 < b by omega)
        have hr : ((n + b - 1) / b) * b = b * ((n + b - 1) / b) := by ring
        omega
      calc n ≤ ((n + b - 1) / b) * b := h4
        _ ≤ b ^ natClogAux b f ((n + b - 1) / b) * b := Nat.mul_le_mul_right b h3
        _ = b ^ (natClogAux b f ((n + b - 1) / b) + 1) := by ring
    · simp only [hc, if_false]
      simp only [pow_zero]
      omega

theorem pow_pred_lt_natClogAux (b : ℕ) (hb : 1 < b) :
    ∀ fuel n, 2 ≤ n →
      1 ≤ natClogAux b (fuel + 1) n ∧ b ^ (natClogAux b (fuel + 1) n - 1) < n := by
  intro fuel
  induction fuel with
  | zero =>
    intro n hn
    unfold natClogAux
    simp only [hn, if_true]
    refine ⟨by omega, ?_⟩
    simp only [natClogAux, Nat.add_sub_cancel, pow_zero]
    omega
  | succ f ih =>
    intro n hn
    unfold natClogAux
    simp only [hn, if_true, Nat.add_sub_cancel]
    refine ⟨by omega, ?_⟩
    by_cases hm2 : 2 ≤ (n + b - 1) / b
    · obtain ⟨hB1, hB2⟩ := ih ((n + b - 1) / b) hm2
      have hbm : b * ((n + b - 1) / b) ≤ n + b - 1 := by
        calc b * ((n + b - 1) / b) = (n + b - 1) / b * b := by ring
          _ ≤ n + b - 1 := Nat.div_mul_le_self _ _
      have h3 : b ^ natClogAux b (f + 1) ((n + b - 1) / b) ≤
          b * ((n + b - 1) / b - 1) := by
        calc b ^ natClogAux b (f + 1) ((n + b - 1) / b)
            = b ^ (natClogAux b (f + 1) ((n + b - 1) / b) - 1 + 1) := by
              congr 1
              omega
          _ = b * b ^ (natClogAux b (f + 1) ((n + b - 1) / b) - 1) := by ring
          _ ≤ b * ((n + b - 1) / b - 1) := Nat.mul_le_mul_left b (by omega)
      have h4 : b * ((n + b - 1) / b - 1) + b = b * ((n + b - 1) / b) := by
        have hm1 : (n + b - 1) / b - 1 + 1 = (n + b - 1) / b := by omega
        calc b * ((n + b - 1) / b - 1) + b
            = b * ((n + b - 1) / b - 1 + 1) := (Nat.mul_succ b _).symm
          _ = b * ((n + b - 1) / b) := by rw [hm1]
      omega
    · have hz : natClogAux b (f + 1) ((n + b - 1) / b) = 0 := by
        unfold natClogAux
        simp [hm2]
      rw [hz]
      simp only [pow_zero]
      omega

theorem natClogAux_le_of_le_pow (b : ℕ) (hb : 1 < b) :
    ∀ fuel n k, n ≤ b ^ k → natClogAux b fuel n ≤ k := by
  intro fuel
  induction fuel with
  | zero =>
    intro n k _
    simp [natClogAux]
  | succ f ih =>
    intro n k hn
    unfold natClogAux
    by_cases hc : 2 ≤ n
    · simp only [hc, if_true]
      cases k with
      | zero =>
        exfalso
        simp at hn
        omega
      | succ k2 =>
        have hdiv : (n + b - 1) / b ≤ b ^ k2 := by
          rw [Nat.div_le_iff_le_mul_add_pred (by omega)]
          rw [pow_succ] at hn
          calc n + b - 1 ≤ b ^ k2 * b + b - 1 := by omega
            _ = b * b ^ k2 + (b - 1) := by
                rw [Nat.add_sub_assoc (by omega : 1 ≤ b)]
                ring_nf
        have := ih ((n + b - 1) / b) k2 hdiv
        omega
    · simp only [hc, if_false]
      exact Nat.zero_le _

theorem natClogAux_mono (b : ℕ) :
    ∀ fuel n n2, n ≤ n2 → natClogAux b fuel n ≤ natClogAux b fuel n2 := by
  intro fuel
  induction fuel with
  | zero =>
    intro n n2 _
    simp [natClogAux]
  | succ f ih =>
    intro n n2 h
    unfold natClogAux
    by_cases hc : 2 ≤ n
    · have hc2 : 2 ≤ n2 := le_trans hc h
      simp only [hc, hc2, if_true]
      have := ih ((n + b - 1) / b) ((n2 + b - 1) / b)
        (Nat.div_le_div_right (by omega))
      omega
    · simp only [hc, if_false]
      exact Nat.zero_le _

/-! ## Properties of rounding half to even -/

theorem roundHalfEven_cases (x : ℚ) :
    roundHalfEven x = ⌊x⌋ ∨ roundHalfEven x = ⌊x⌋ + 1 := by
  unfold roundHalfEven
  split_ifs <;> simp

theorem floor_le_roundHalfEven (x : ℚ) : ⌊x⌋ ≤ roundHalfEven x := by
  rcases roundHalfEven_cases x with h | h <;> omega

theorem roundHalfEven_le_floor_add_one (x : ℚ) : roundHalfEven x ≤ ⌊x⌋ + 1 := by
  rcases roundHalfEven_cases x with h | h <;> omega

theorem roundHalfEven_le (x : ℚ) : (roundHalfEven x : ℚ) ≤ x + 1 / 2 := by
  have hfl := Int.floor_le x
  unfold roundHalfEven
  split_ifs with h1 h2 h3 <;> push_cast <;> linarith

theorem le_roundHalfEven (x : ℚ) : x - 1 / 2 ≤ (roundHalfEven x : ℚ) := by
  have hfl := Int.lt_floor_add_one x
  unfold roundHalfEven
  split_ifs with h1 h2 h3 <;> push_cast <;> linarith

theorem roundHalfEven_mono (x y : ℚ) (h : x ≤ y) :
    roundHalfEven x ≤ roundHalfEven y := by
  have hf : ⌊x⌋ ≤ ⌊y⌋ := Int.floor_le_floor h
  rcases eq_or_lt_of_le hf with heq | hlt
  · have hxy : x - ⌊x⌋ ≤ y - ⌊y⌋ := by
      rw [← heq]
      push_cast
      linarith
    unfold roundHalfEven
    rw [← heq]
    split_ifs <;> first
      | omega
      | (exfalso; push_cast at *; linarith)
      | simp_all
  · have h1 := roundHalfEven_le_floor_add_one x
    have h2 := floor_le_roundHalfEven y
    omega

theorem roundHalfEven_nonneg (x : ℚ) (h : 0 ≤ x) : 0 ≤ roundHalfEven x := by
  have := floor_le_roundHalfEven x
  have := Int.floor_nonneg.mpr h
  omega

theorem roundHalfEven_neg (x : ℚ) : roundHalfEven (-x) = -roundHalfEven x := by
  by_cases hint : (⌊x⌋ : ℚ) = x
  · rw [← hint]
    have h1 : -((⌊x⌋ : ℤ) : ℚ) = ((-⌊x⌋ : ℤ) : ℚ) := by push_cast; ring
    rw [h1, roundHalfEven_intCast, roundHalfEven_intCast]
  · have hu0 : 0 < x - ⌊x⌋ := by
      rcases eq_or_lt_of_le (Int.floor_le x) with h | h
      · exact absurd h hint
      · linarith
    have hu1 : x - ⌊x⌋ < 1 := by
      have := Int.lt_floor_add_one x
      linarith
    have hfneg : ⌊-x⌋ = -⌊x⌋ - 1 := by
      rw [Int.floor_eq_iff]
      push_cast
      constructor <;> linarith
    have hpar : (-⌊x⌋ - 1) % 2 = 0 ↔ ¬(⌊x⌋ % 2 = 0) := by omega
    unfold roundHalfEven
    rw [hfneg]
    simp only [Int.even_iff]
    split_ifs with h1 h2 h3 h4 h5 h6 h7 <;> push_cast at * <;>
      first
        | omega
        | linarith
        | (exfalso; omega)
        | (exfalso; linarith)

/-! ## Order properties of the fuel-bounded logarithm -/

theorem ratLog_mono (b : ℕ) (r r2 : ℚ) (h0 : 0 < r) (h : r ≤ r2) :
    ratLog b r ≤ ratLog b r2 := by
  unfold ratLog
  by_cases h1 : 1 ≤ r
  · rw [if_pos h1, if_pos (le_trans h1 h)]
    have := natLogAux_mono b 2000 ⌊r⌋₊ ⌊r2⌋₊ (Nat.floor_mono h)
    omega
  · rw [if_neg h1]
    by_cases h2 : 1 ≤ r2
    · rw [if_pos h2]
      have := natClogAux_le_fuel b 2000 ⌈r⁻¹⌉₊
      omega
    · rw [if_neg h2]
      have hinv : r2⁻¹ ≤ r⁻¹ := inv_anti₀ h0 h
      have := natClogAux_mono b 2000 ⌈r2⁻¹⌉₊ ⌈r⁻¹⌉₊ (Nat.ceil_mono hinv)
      omega

theorem ratLog_lower (b : ℕ) (hb : 1 < b) (r : ℚ) (h0 : 0 < r)
    (hcap : -2000 < ratLog b r) : (b : ℚ) ^ (ratLog b r) ≤ r := by
  unfold ratLog at hcap ⊢
  by_cases h1 : 1 ≤ r
  · rw [if_pos h1]
    have hfl : 1 ≤ ⌊r⌋₊ := by
      rw [Nat.one_le_iff_ne_zero, ← Nat.pos_iff_ne_zero]
      exact Nat.floor_pos.mpr h1
    have h2 := pow_natLogAux_le b hb 2000 ⌊r⌋₊ hfl
    have h3 : ((b ^ natLogAux b 2000 ⌊r⌋₊ : ℕ) : ℚ) ≤ (⌊r⌋₊ : ℚ) := by
      exact_mod_cast h2
    have h4 : ((⌊r⌋₊ : ℕ) : ℚ) ≤ r := Nat.floor_le (le_of_lt h0)
    calc (b : ℚ) ^ ((natLogAux b 2000 ⌊r⌋₊ : ℤ)) =
        ((b ^ natLogAux b 2000 ⌊r⌋₊ : ℕ) : ℚ) := by
          push_cast
          rw [← zpow_natCast]
      _ ≤ r := le_trans h3 h4
  · rw [if_neg h1] at hcap ⊢
    have hA : natClogAux b 2000 ⌈r⁻¹⌉₊ < 2000 := by omega
    have h2 := le_pow_natClogAux b hb 2000 ⌈r⁻¹⌉₊ hA
    have h3 : r⁻¹ ≤ ((b ^ natClogAux b 2000 ⌈r⁻¹⌉₊ : ℕ) : ℚ) := by
      calc r⁻¹ ≤ (⌈r⁻¹⌉₊ : ℚ) := Nat.le_ceil _
        _ ≤ ((b ^ natClogAux b 2000 ⌈r⁻¹⌉₊ : ℕ) : ℚ) := by exact_mod_cast h2
    have hbpos : (0 : ℚ) < ((b ^ natClogAux b 2000 ⌈r⁻¹⌉₊ : ℕ) : ℚ) := by
      have : 0 < b ^ natClogAux b 2000 ⌈r⁻¹⌉₊ := Nat.pos_pow_of_pos _ (by omega)
      exact_mod_cast this
    have h4 : ((b ^ natClogAux b 2000 ⌈r⁻¹⌉₊ : ℕ) : ℚ)⁻¹ ≤ r := by
      rw [inv_le_comm₀ hbpos h0]
      exact h3
    calc (b : ℚ) ^ (-(natClogAux b 2000 ⌈r⁻¹⌉₊ : ℤ)) =
        ((b ^ natClogAux b 2000 ⌈r⁻¹⌉₊ : ℕ) : ℚ)⁻¹ := by
          rw [zpow_neg]
          congr 1
          push_cast
          rw [← zpow_natCast]
      _ ≤ r := h4

theorem ratLog_upper (b : ℕ) (hb : 1 < b) (r : ℚ) (h0 : 0 < r)
    (hcap : ratLog b r < 2000) : r < (b : ℚ) ^ (ratLog b r + 1) := by
  unfold ratLog at hcap ⊢
  by_cases h1 : 1 ≤ r
  · rw [if_pos h1] at hcap ⊢
    have hA : natLogAux b 2000 ⌊r⌋₊ < 2000 := by omega
    have h2 := natLogAux_lt_fuel_upper b hb 2000 ⌊r⌋₊ hA
    have h3 : r < (⌊r⌋₊ : ℚ) + 1 := Nat.lt_floor_add_one r
    have h4 : ((⌊r⌋₊ : ℕ) : ℚ) + 1 ≤ ((b ^ (natLogAux b 2000 ⌊r⌋₊ + 1) : ℕ) : ℚ) := by
      exact_mod_cast h2
    calc r < (⌊r⌋₊ : ℚ) + 1 := h3
      _ ≤ ((b ^ (natLogAux b 2000 ⌊r⌋₊ + 1) : ℕ) : ℚ) := h4
      _ = (b : ℚ) ^ ((natLogAux b 2000 ⌊r⌋₊ : ℤ) + 1) := by
          push_cast
          rw [← zpow_natCast (b : ℚ) (natLogAux b 2000 ⌊r⌋₊ + 1)]
          push_cast
          ring_nf
  · rw [if_neg h1]
    have hrinv : 1 < r⁻¹ := by
      rw [lt_inv_comm₀ (by norm_num) h0]
      simpa using not_le.mp h1
    have hceil : 2 ≤ ⌈r⁻¹⌉₊ := by
      have : 1 < ⌈r⁻¹⌉₊ := by
        rw [Nat.lt_ceil]
        exact_mod_cast hrinv
      omega
    have h2000 : (2000 : ℕ) = 1999 + 1 := by norm_num
    have hB := pow_pred_lt_natClogAux b hb 1999 ⌈r⁻¹⌉₊ hceil
    rw [← h2000] at hB
    obtain ⟨hB1, hB2⟩ := hB
    have h3 : ((b ^ (natClogAux b 2000 ⌈r⁻¹⌉₊ - 1) : ℕ) : ℚ) < r⁻¹ := by
      have hc1 : ((b ^ (natClogAux b 2000 ⌈r⁻¹⌉₊ - 1) : ℕ) : ℚ) + 1 ≤ (⌈r⁻¹⌉₊ : ℚ) := by
        exact_mod_cast hB2
      have hc2 : (⌈r⁻¹⌉₊ : ℚ) < r⁻¹ + 1 := Nat.ceil_lt_add_one (le_of_lt (by positivity))
      linarith
    have hbpos : (0 : ℚ) < ((b ^ (natClogAux b 2000 ⌈r⁻¹⌉₊ - 1) : ℕ) : ℚ) := by
      have : 0 < b ^ (natClogAux b 2000 ⌈r⁻¹⌉₊ - 1) := Nat.pos_pow_of_pos _ (by omega)
      exact_mod_cast this
    have h4 : r < ((b ^ (natClogAux b 2000 ⌈r⁻¹⌉₊ - 1) : ℕ) : ℚ)⁻¹ := by
      rw [lt_inv_comm₀ h0 (by positivity)]
      exact h3
    calc r < ((b ^ (natClogAux b 2000 ⌈r⁻¹⌉₊ - 1) : ℕ) : ℚ)⁻¹ := h4
      _ = (b : ℚ) ^ (-(natClogAux b 2000 ⌈r⁻¹⌉₊ : ℤ) + 1) := by
          have hc : ((b ^ (natClogAux b 2000 ⌈r⁻¹⌉₊ - 1) : ℕ) : ℚ) =
              (b : ℚ) ^ ((natClogAux b 2000 ⌈r⁻¹⌉₊ : ℤ) - 1) := by
            push_cast
            rw [← zpow_natCast (b : ℚ) (natClogAux b 2000 ⌈r⁻¹⌉₊ - 1)]
            congr 1
            push_cast [Nat.cast_sub hB1]
            ring
          rw [hc, ← zpow_neg]
          congr 1
          ring

/-! ## The value computed by roundF64 before the overflow check -/

/-- The rounded value before the overflow check of roundF64. -/
def roundVal (y : ℚ) : ℚ :=
  (roundHalfEven (y / 2 ^ esF64 y) : ℚ) * 2 ^ esF64 y

theorem roundVal_zero : roundVal 0 = 0 := by
  unfold roundVal
  rw [zero_div]
  have h0 : roundHalfEven 0 = 0 := by
    have := roundHalfEven_intCast 0
    simpa using this
  rw [h0]
  simp

theorem roundF64_finite_val (y r : ℚ) (h : roundF64 y = .finite r) :
    r = roundVal y ∧ |r| ≤ maxFiniteF64 := by
  by_cases hy : y = 0
  · subst hy
    unfold roundF64 at h
    rw [if_pos rfl] at h
    injection h with h1
    rw [← h1, roundVal_zero]
    constructor
    · rfl
    · rw [abs_zero, maxFiniteF64_eq]
      positivity
  · rw [roundF64_eq_of_ne y hy] at h
    by_cases hov : maxFiniteF64 <
        |(roundHalfEven (y / 2 ^ esF64 y) : ℚ) * 2 ^ esF64 y|
    · rw [if_pos hov] at h
      split at h <;> exact absurd h (by simp)
    · rw [if_neg hov] at h
      injection h with h1
      exact ⟨h1.symm, h1 ▸ not_lt.mp hov⟩

theorem roundF64_finite_of_le (y : ℚ) (h : |roundVal y| ≤ maxFiniteF64) :
    roundF64 y = .finite (roundVal y) := by
  by_cases hy : y = 0
  · subst hy
    rw [roundVal_zero]
    unfold roundF64
    rw [if_pos rfl]
  · rw [roundF64_eq_of_ne y hy]
    have hrv : (roundHalfEven (y / 2 ^ esF64 y) : ℚ) * 2 ^ esF64 y = roundVal y := rfl
    rw [hrv, if_neg (not_lt.mpr h)]

theorem esF64_neg (y : ℚ) : esF64 (-y) = esF64 y := by
  unfold esF64
  rw [abs_neg]

theorem roundVal_neg (y : ℚ) : roundVal (-y) = -roundVal y := by
  unfold roundVal
  rw [esF64_neg, neg_div, roundHalfEven_neg]
  push_cast
  ring

theorem roundVal_nonneg (y : ℚ) (h : 0 ≤ y) : 0 ≤ roundVal y := by
  unfold roundVal
  apply mul_nonneg
  · exact_mod_cast roundHalfEven_nonneg _ (div_nonneg h (le_of_lt (by positivity)))
  · positivity

theorem esF64_mono_pos (v w : ℚ) (h0 : 0 < v) (h : v ≤ w) :
    esF64 v ≤ esF64 w := by
  unfold esF64
  have habs : |v| ≤ |w| := by
    rw [abs_of_pos h0, abs_of_pos (lt_of_lt_of_le h0 h)]
    exact h
  have := ratLog_mono 2 |v| |w| (abs_pos.mpr (ne_of_gt h0)) habs
  omega

theorem roundVal_mono_pos (v w : ℚ) (h0 : 0 < v) (hvw : v ≤ w) :
    roundVal v ≤ roundVal w := by
  have h0w : 0 < w := lt_of_lt_of_le h0 hvw
  have hE := esF64_mono_pos v w h0 hvw
  rcases eq_or_lt_of_le hE with heq | hlt
  · unfold roundVal
    rw [heq]
    have hp : (0 : ℚ) < 2 ^ esF64 w := by positivity
    have hm := roundHalfEven_mono (v / 2 ^ esF64 w) (w / 2 ^ esF64 w)
      ((div_le_div_right hp).mpr hvw)
    exact mul_le_mul_of_nonneg_right (by exact_mod_cast hm) (le_of_lt hp)
  · -- the exponent strictly grows; bound through the binade boundary
    have hLbounds := ratLog_bound 2 |w|
    have hLv_lt : ratLog 2 |v| < 2000 := by
      unfold esF64 at hlt
      omega
    have hupper := ratLog_upper 2 (by norm_num) |v| (abs_pos.mpr (ne_of_gt h0)) hLv_lt
    have hEwnormal : esF64 w = ratLog 2 |w| - 52 := by
      have hbv := (esF64_bound v).1
      have hgt : -1074 < esF64 w := lt_of_le_of_lt hbv hlt
      unfold esF64 at hgt ⊢
      omega
    have hLw_cap : -2000 < ratLog 2 |w| := by
      have hbw := (esF64_bound w).1
      rw [hEwnormal] at hbw
      omega
    have hlower := ratLog_lower 2 (by norm_num) |w| (abs_pos.mpr (ne_of_gt h0w)) hLw_cap
    -- upper bound on the v side
    have hvlt : v < 2 ^ (esF64 v + 53) := by
      have h1 : (2 : ℚ) ^ (ratLog 2 |v| + 1) ≤ 2 ^ (esF64 v + 53) := by
        apply zpow_le_zpow_right₀ (by norm_num)
        unfold esF64
        omega
      have h2 : v ≤ |v| := le_abs_self v
      calc v ≤ |v| := h2
        _ < (2 : ℚ) ^ (ratLog 2 |v| + 1) := by exact_mod_cast hupper
        _ ≤ 2 ^ (esF64 v + 53) := h1
    have hmv : roundHalfEven (v / 2 ^ esF64 v) ≤ 2 ^ 53 := by
      have hp : (0 : ℚ) < 2 ^ esF64 v := by positivity
      have h1 : v / 2 ^ esF64 v < 2 ^ 53 := by
        rw [div_lt_iff₀ hp]
        calc v < 2 ^ (esF64 v + 53) := hvlt
          _ = 2 ^ (53 : ℕ) * 2 ^ esF64 v := by
              rw [← zpow_natCast (2 : ℚ) 53, ← zpow_add₀ (two_ne_zero)]
              congr 1
              omega
      have h2 := roundHalfEven_le (v / 2 ^ esF64 v)
      have h3 : (roundHalfEven (v / 2 ^ esF64 v) : ℚ) < 2 ^ 53 + 1 := by
        calc (roundHalfEven (v / 2 ^ esF64 v) : ℚ) ≤ v / 2 ^ esF64 v + 1 / 2 := h2
          _ < 2 ^ 53 + 1 := by linarith
      exact_mod_cast (by exact_mod_cast Int.lt_add_one_iff.mp (by exact_mod_cast h3) :
        roundHalfEven (v / 2 ^ esF64 v) ≤ (2 : ℤ) ^ 53)
    -- lower bound on the w side
    have hwge : (2 : ℚ) ^ (esF64 w + 52) ≤ w := by
      have h1 : (2 : ℚ) ^ (esF64 w + 52) = 2 ^ (ratLog 2 |w|) := by
        congr 1
        omega
      rw [h1]
      calc (2 : ℚ) ^ (ratLog 2 |w|) ≤ |w| := by exact_mod_cast hlower
        _ = w := abs_of_pos h0w
    have hmw : (2 : ℤ) ^ 52 ≤ roundHalfEven (w / 2 ^ esF64 w) := by
      have hp : (0 : ℚ) < 2 ^ esF64 w := by positivity
      have h1 : (2 : ℚ) ^ (52 : ℕ) ≤ w / 2 ^ esF64 w := by
        rw [le_div_iff₀ hp]
        calc (2 : ℚ) ^ (52 : ℕ) * 2 ^ esF64 w = 2 ^ (esF64 w + 52) := by
              rw [← zpow_natCast (2 : ℚ) 52, ← zpow_add₀ (two_ne_zero)]
              congr 1
              omega
          _ ≤ w := hwge
      have h2 := le_roundHalfEven (w / 2 ^ esF64 w)
      have h3 : (2 : ℚ) ^ (52 : ℕ) - 1 < (roundHalfEven (w / 2 ^ esF64 w) : ℚ) := by
        linarith
      have h4 : ((2 : ℤ) ^ 52 - 1 : ℤ) < roundHalfEven (w / 2 ^ esF64 w) := by
        exact_mod_cast h3
      omega
    -- chain the two bounds
    unfold roundVal
    have hpv : (0 : ℚ) < 2 ^ esF64 v := by positivity
    have hpw : (0 : ℚ) < 2 ^ esF64 w := by positivity
    calc (roundHalfEven (v / 2 ^ esF64 v) : ℚ) * 2 ^ esF64 v
        ≤ (2 : ℚ) ^ (53 : ℕ) * 2 ^ esF64 v := by
          apply mul_le_mul_of_nonneg_right _ (le_of_lt hpv)
          exact_mod_cast hmv
      _ = 2 ^ (esF64 v + 53) := by
          rw [← zpow_natCast (2 : ℚ) 53, ← zpow_add₀ (two_ne_zero)]
          congr 1
          omega
      _ ≤ 2 ^ (esF64 w + 52) := by
          apply zpow_le_zpow_right₀ (by norm_num)
          omega
      _ = (2 : ℚ) ^ (52 : ℕ) * 2 ^ esF64 w := by
          rw [← zpow_natCast (2 : ℚ) 52, ← zpow_add₀ (two_ne_zero)]
          congr 1
          omega
      _ ≤ (roundHalfEven (w / 2 ^ esF64 w) : ℚ) * 2 ^ esF64 w := by
          apply mul_le_mul_of_nonneg_right _ (le_of_lt hpw)
          exact_mod_cast hmw

theorem roundVal_mono (v w : ℚ) (h : v ≤ w) : roundVal v ≤ roundVal w := by
  rcases lt_trichotomy v 0 with hv | hv | hv
  · rcases le_or_lt w 0 with hw | hw
    · by_cases hw0 : w = 0
      · subst hw0
        rw [roundVal_zero]
        have h2 := roundVal_nonneg (-v) (by linarith)
        rw [roundVal_neg] at h2
        linarith
      · have hwneg : w < 0 := lt_of_le_of_ne hw hw0
        have h2 := roundVal_mono_pos (-w) (-v) (by linarith) (by linarith)
        rw [roundVal_neg, roundVal_neg] at h2
        linarith
    · have h1 : roundVal v ≤ 0 := by
        have h2 := roundVal_nonneg (-v) (by linarith)
        rw [roundVal_neg] at h2
        linarith
      have h2 : 0 ≤ roundVal w := roundVal_nonneg w (le_of_lt hw)
      linarith
  · rw [hv, roundVal_zero]
    exact roundVal_nonneg w (by linarith)
  · exact roundVal_mono_pos v w hv h

/-- Convexity of the set of rationals converting to a given finite float:
whatever lies between two such rationals also converts to it. -/
theorem roundF64_between (v w x q : ℚ) (hvw : v ≤ w) (hwx : w ≤ x)
    (hv : roundF64 v = .finite q) (hx : roundF64 x = .finite q) :
    roundF64 w = .finite q := by
  obtain ⟨hv1, hv2⟩ := roundF64_finite_val v q hv
  obtain ⟨hx1, _⟩ := roundF64_finite_val x q hx
  have h1 := roundVal_mono v w hvw
  have h2 := roundVal_mono w x hwx
  rw [← hv1] at h1
  rw [← hx1] at h2
  have heq : roundVal w = q := le_antisymm h2 h1
  have h3 : |roundVal w| ≤ maxFiniteF64 := by
    rw [heq]
    exact hv2
  rw [roundF64_finite_of_le w h3, heq]

theorem powAux_pos (b : ℚ) (hb : 0 < b) : ∀ fuel n, 0 < powAux b fuel n := by
  intro fuel
  induction fuel with
  | zero =>
    intro n
    simp [powAux]
  | succ f ih =>
    intro n
    unfold powAux
    split_ifs with h1 h2
    · norm_num
    · exact mul_pos (ih (n / 2)) (ih (n / 2))
    · exact mul_pos (mul_pos (ih (n / 2)) (ih (n / 2))) hb

theorem pow10z_pos (e : ℤ) : 0 < pow10z e := by
  unfold pow10z
  split_ifs
  · exact powAux_pos 10 (by norm_num) 64 _
  · exact inv_pos.mpr (powAux_pos 10 (by norm_num) 64 _)

theorem pow2z_pos (e : ℤ) : 0 < pow2z e := by
  unfold pow2z
  split_ifs
  · exact powAux_pos 2 (by norm_num) 64 _
  · exact inv_pos.mpr (powAux_pos 2 (by norm_num) 64 _)

/-- Conversion of pow10z to zpow in the exponent range the search uses. -/
theorem pow10z_eq_range (e : ℤ) (h1 : -2400 ≤ e) (h2 : e ≤ 2400) :
    pow10z e = (10 : ℚ) ^ e := by
  apply pow10z_eq
  constructor <;> omega

/-! ## The significand length found by the shortest-digit search -/

/-- The first significand length at which the search finds a candidate. -/
def shortestKAux (q : ℚ) (t : ℤ) : ℕ → ℕ → ℕ
  | 0, k => k
  | fuel + 1, k =>
    match shortestAtK q t k with
    | some _ => k
    | none => shortestKAux q t fuel (k + 1)

/-- The number of significant digits of the emitted shortest conversion. -/
def shortestK (q : ℚ) : ℕ := shortestKAux q (ratLog 10 |q|) 2000 1

theorem shortestKAux_ge (q : ℚ) (t : ℤ) :
    ∀ fuel k, k ≤ shortestKAux q t fuel k := by
  intro fuel
  induction fuel with
  | zero =>
    intro k
    simp [shortestKAux]
  | succ f ih =>
    intro k
    unfold shortestKAux
    rcases h : shortestAtK q t k with _ | c
    · simp only
      have := ih (k + 1)
      omega
    · simp only
      omega

theorem shortestAux_at_shortestKAux (q : ℚ) (t : ℤ) :
    ∀ fuel k c, shortestAux q t fuel k = some c →
      shortestAtK q t (shortestKAux q t fuel k) = some c := by
  intro fuel
  induction fuel with
  | zero =>
    intro k c h
    exact absurd h (by simp [shortestAux])
  | succ f ih =>
    intro k c h
    unfold shortestAux at h
    unfold shortestKAux
    rcases hk : shortestAtK q t k with _ | d
    · rw [hk] at h
      simp only at h ⊢
      exact ih (k + 1) c h
    · rw [hk] at h
      simp only at h ⊢
      injection h with h0
      rw [← h0]
      exact hk

theorem shortestAux_none_before (q : ℚ) (t : ℤ) :
    ∀ fuel k c, shortestAux q t fuel k = some c →
      ∀ j, k ≤ j → j < shortestKAux q t fuel k → shortestAtK q t j = none := by
  intro fuel
  induction fuel with
  | zero =>
    intro k c h
    exact absurd h (by simp [shortestAux])
  | succ f ih =>
    intro k c h j hj1 hj2
    unfold shortestAux at h
    unfold shortestKAux at hj2
    rcases hk : shortestAtK q t k with _ | d
    · rw [hk] at h
      simp only at h
      rw [hk] at hj2
      simp only at hj2
      by_cases hjk : j = k
      · rw [hjk]
        exact hk
      · exact ih (k + 1) c h j (by omega) hj2
    · rw [hk] at hj2
      simp only at hj2
      omega

theorem shortestAux_ne_none (q : ℚ) (t : ℤ) :
    ∀ fuel k j, k ≤ j → j < k + fuel → shortestAtK q t j ≠ none →
      shortestAux q t fuel k ≠ none := by
  intro fuel
  induction fuel with
  | zero =>
    intro k j h1 h2
    omega
  | succ f ih =>
    intro k j h1 h2 h3
    unfold shortestAux
    rcases hk : shortestAtK q t k with _ | d
    · simp only
      by_cases hjk : j = k
      · rw [hjk] at h3
        exact absurd hk h3
      · exact ih (k + 1) j (by omega) (by omega) h3
    · simp

/-- When the search step fails, neither enclosing grid value converts
back. -/
theorem shortestAtK_none (q : ℚ) (t : ℤ) (k : ℕ)
    (h : shortestAtK q t k = none) :
    roundF64 ((⌊q / pow10z (t - k + 1)⌋ : ℚ) * pow10z (t - k + 1)) ≠ .finite q ∧
    roundF64 ((⌊q / pow10z (t - k + 1)⌋ : ℚ) * pow10z (t - k + 1) +
      pow10z (t - k + 1)) ≠ .finite q := by
  simp only [shortestAtK] at h
  split_ifs at h <;> first
    | exact Option.noConfusion h
    | exact ⟨by assumption, by assumption⟩

/-- When the search step succeeds, the returned candidate is one of the
two enclosing grid values. -/
theorem shortestAtK_mem (q : ℚ) (t : ℤ) (k : ℕ) (c : ℚ)
    (h : shortestAtK q t k = some c) :
    c = (⌊q / pow10z (t - k + 1)⌋ : ℚ) * pow10z (t - k + 1) ∨
    c = (⌊q / pow10z (t - k + 1)⌋ : ℚ) * pow10z (t - k + 1) + pow10z (t - k + 1) := by
  simp only [shortestAtK] at h
  split_ifs at h <;> first
    | exact Option.noConfusion h
    | (injection h with h0; rw [← h0]; simp)

/-! ## Decimal grids and the minimality argument -/

/-- Decimal values expressible with at most k significant digits. -/
def DecDigits (v : ℚ) (k : ℕ) : Prop :=
  ∃ (n p : ℤ), v = (n : ℚ) * 10 ^ p ∧ |n| < 10 ^ k

theorem grid_le_lo (q step v : ℚ) (hs : 0 < step) (z : ℤ)
    (hz : v = (z : ℚ) * step) (hv : v ≤ q) :
    v ≤ (⌊q / step⌋ : ℚ) * step := by
  have h1 : (z : ℚ) ≤ q / step := by
    rw [le_div_iff₀ hs]
    rw [← hz]
    exact hv
  have h2 : z ≤ ⌊q / step⌋ := Int.le_floor.mpr h1
  rw [hz]
  exact mul_le_mul_of_nonneg_right (by exact_mod_cast h2) (le_of_lt hs)

theorem grid_ge_hi (q step v : ℚ) (hs : 0 < step) (z : ℤ)
    (hz : v = (z : ℚ) * step) (hv : q < v) :
    (⌊q / step⌋ : ℚ) * step + step ≤ v := by
  have h1 : q / step < (z : ℚ) := by
    rw [div_lt_iff₀ hs]
    rw [← hz]
    exact hv
  have h2 : ⌊q / step⌋ < z := by
    have h3 : (⌊q / step⌋ : ℚ) < (z : ℚ) := lt_of_le_of_lt (Int.floor_le _) h1
    exact_mod_cast h3
  have h4 : ((⌊q / step⌋ + 1 : ℤ) : ℚ) ≤ (z : ℚ) := by exact_mod_cast h2
  calc (⌊q / step⌋ : ℚ) * step + step = ((⌊q / step⌋ + 1 : ℤ) : ℚ) * step := by
        push_cast
        ring
    _ ≤ (z : ℚ) * step := mul_le_mul_of_nonneg_right h4 (le_of_lt hs)
    _ = v := hz.symm

/-- No value on the search grid of level k converts back to q once the
search step at k has failed. -/
theorem coarse_no_roundtrip (q : ℚ) (t : ℤ) (k : ℕ)
    (hfin : IsFiniteF64 q)
    (hnone : shortestAtK q t k = none)
    (v : ℚ) (z : ℤ) (hz : v = (z : ℚ) * pow10z (t - k + 1))
    (hv : roundF64 v = .finite q) : False := by
  obtain ⟨hlo, hhi⟩ := shortestAtK_none q t k hnone
  have hs : 0 < pow10z (t - k + 1) := pow10z_pos _
  rcases le_or_lt v q with hvq | hvq
  · have h1 := grid_le_lo q (pow10z (t - k + 1)) v hs z hz hvq
    have h2 : (⌊q / pow10z (t - k + 1)⌋ : ℚ) * pow10z (t - k + 1) ≤ q := by
      calc (⌊q / pow10z (t - k + 1)⌋ : ℚ) * pow10z (t - k + 1)
          ≤ (q / pow10z (t - k + 1)) * pow10z (t - k + 1) :=
            mul_le_mul_of_nonneg_right (Int.floor_le _) (le_of_lt hs)
        _ = q := div_mul_cancel₀ q (ne_of_gt hs)
    exact hlo (roundF64_between v _ q q h1 h2 hv hfin)
  · have h1 := grid_ge_hi q (pow10z (t - k + 1)) v hs z hz hvq
    have h2 : q ≤ (⌊q / pow10z (t - k + 1)⌋ : ℚ) * pow10z (t - k + 1) +
        pow10z (t - k + 1) := by
      have h3 : q / pow10z (t - k + 1) < (⌊q / pow10z (t - k + 1)⌋ : ℚ) + 1 :=
        Int.lt_floor_add_one _
      have h4 : q < ((⌊q / pow10z (t - k + 1)⌋ : ℚ) + 1) * pow10z (t - k + 1) := by
        rw [← div_lt_iff₀ hs]
        exact h3
      nlinarith [hs]
    exact hhi (roundF64_between q _ v q h2 h1 hfin hv)

/-- Once the search step at level k has failed, no value with at most k
significant digits converts back to q. -/
theorem no_short_roundtrip (q : ℚ) (t : ℤ) (k : ℕ) (hk : 1 ≤ k)
    (hfin : IsFiniteF64 q) (hq0 : q ≠ 0)
    (ht : (10 : ℚ) ^ t ≤ |q|)
    (ht1 : -2400 ≤ t - k + 1) (ht2 : t - k + 1 ≤ 2400)
    (hnone : shortestAtK q t k = none)
    (v : ℚ) (hd : DecDigits v k) (hv : roundF64 v = .finite q) : False := by
  obtain ⟨n, p, hvnp, hnk⟩ := hd
  have hstep : pow10z (t - k + 1) = (10 : ℚ) ^ (t - k + 1) :=
    pow10z_eq_range _ ht1 ht2
  by_cases hp : t - k + 1 ≤ p
  · have hz : v = ((n * 10 ^ (p - (t - k + 1)).toNat : ℤ) : ℚ) * pow10z (t - k + 1) := by
      rw [hvnp, hstep]
      push_cast
      rw [← zpow_natCast (10 : ℚ) (p - (t - k + 1)).toNat,
        Int.toNat_of_nonneg (by omega), mul_assoc,
        ← zpow_add₀ (by norm_num : (10 : ℚ) ≠ 0)]
      congr 2
      omega
    exact coarse_no_roundtrip q t k hfin hnone v _ hz hv
  · have hvlt : |v| < (10 : ℚ) ^ t := by
      rw [hvnp, abs_mul]
      have h1 : |(n : ℚ)| < (10 : ℚ) ^ (k : ℤ) := by
        rw [← Int.cast_abs]
        calc ((|n| : ℤ) : ℚ) < ((10 ^ k : ℤ) : ℚ) := by exact_mod_cast hnk
          _ = (10 : ℚ) ^ (k : ℤ) := by push_cast; rw [← zpow_natCast]
      have h3 : |(10 : ℚ) ^ p| = (10 : ℚ) ^ p := abs_of_pos (by positivity)
      rw [h3]
      calc |(n : ℚ)| * (10 : ℚ) ^ p < (10 : ℚ) ^ (k : ℤ) * (10 : ℚ) ^ p := by
            apply mul_lt_mul_of_pos_right _ (by positivity)
            rw [← Int.cast_abs] at h1 ⊢
            exact h1
        _ = (10 : ℚ) ^ ((k : ℤ) + p) := (zpow_add₀ (by norm_num) _ _).symm
        _ ≤ (10 : ℚ) ^ t := by
            apply zpow_le_zpow_right₀ (by norm_num)
            omega
    rcases lt_trichotomy q 0 with hqs | hqs | hqs
    · have hqw : q ≤ -((10 : ℚ) ^ t) := by
        rw [abs_of_neg hqs] at ht
        linarith
    -- the power of ten separates v from q on the negative side
      have hwv : -((10 : ℚ) ^ t) ≤ v := by
        have := abs_lt.mp hvlt
        linarith [this.1]
      have hw_mem : roundF64 (-((10 : ℚ) ^ t)) = .finite q :=
        roundF64_between q (-((10 : ℚ) ^ t)) v q hqw hwv hfin hv
      have hz : -((10 : ℚ) ^ t) =
          ((-(10 ^ (k - 1)) : ℤ) : ℚ) * pow10z (t - k + 1) := by
        rw [hstep]
        push_cast
        rw [← zpow_natCast (10 : ℚ) (k - 1), neg_mul,
          ← zpow_add₀ (by norm_num : (10 : ℚ) ≠ 0)]
        congr 2
        omega
      exact coarse_no_roundtrip q t k hfin hnone _ _ hz hw_mem
    · exact hq0 hqs
    · have hwq : (10 : ℚ) ^ t ≤ q := by
        rw [abs_of_pos hqs] at ht
        exact ht
      have hvw : v ≤ (10 : ℚ) ^ t := by
        have := abs_lt.mp hvlt
        linarith [this.2]
      have hw_mem : roundF64 ((10 : ℚ) ^ t) = .finite q :=
        roundF64_between v ((10 : ℚ) ^ t) q q hvw hwq hv hfin
      have hz : (10 : ℚ) ^ t = ((10 ^ (k - 1) : ℤ) : ℚ) * pow10z (t - k + 1) := by
        rw [hstep]
        push_cast
        rw [← zpow_natCast (10 : ℚ) (k - 1),
          ← zpow_add₀ (by norm_num : (10 : ℚ) ≠ 0)]
        congr 2
        omega
      exact coarse_no_roundtrip q t k hfin hnone _ _ hz hw_mem

/-! ## Range bounds for a finite nonzero value -/

/-- A finite nonzero binary64 value is at least the smallest positive
subnormal in magnitude. -/
theorem abs_ge_min_subnormal (q : ℚ) (hfin : IsFiniteF64 q) (h0 : q ≠ 0) :
    (2 : ℚ) ^ (-1074 : ℤ) ≤ |q| := by
  have hval := (roundF64_finite_val q q hfin).1
  unfold roundVal at hval
  have hesb := (esF64_bound q).1
  generalize hE : esF64 q = E at hval hesb
  set m := roundHalfEven (q / 2 ^ E) with hm
  have hm0 : m ≠ 0 := by
    intro hc
    rw [hc] at hval
    simp at hval
    exact h0 hval
  have hpos : (0 : ℚ) < (2 : ℚ) ^ E := by positivity
  have h1 : (1 : ℚ) ≤ |(m : ℚ)| := by exact_mod_cast Int.one_le_abs hm0
  have habs : |q| = |(m : ℚ)| * (2 : ℚ) ^ E := by
    rw [hval, abs_mul, abs_of_pos hpos]
  rw [habs]
  calc (2 : ℚ) ^ (-1074 : ℤ) ≤ (2 : ℚ) ^ E := zpow_le_zpow_right₀ (by norm_num) hesb
    _ ≤ |(m : ℚ)| * (2 : ℚ) ^ E := le_mul_of_one_le_left (le_of_lt hpos) h1

theorem ratLog10_le_308 (q : ℚ) (h0 : q ≠ 0) (hb : |q| ≤ maxFiniteF64) :
    ratLog 10 |q| ≤ 308 := by
  unfold ratLog
  split_ifs with h1
  · have hfl : ⌊|q|⌋₊ < 10 ^ (308 + 1) := by
      rw [Nat.floor_lt (abs_nonneg q)]
      push_cast
      calc |q| ≤ maxFiniteF64 := hb
        _ < (10 : ℚ) ^ (308 + 1) := by
            unfold maxFiniteF64
            norm_num
    have h3 := natLogAux_le_of_lt_pow 10 (by norm_num) 2000 ⌊|q|⌋₊ 308 hfl
    omega
  · omega

theorem neg324_le_ratLog10 (q : ℚ) (h0 : q ≠ 0)
    (h2 : (2 : ℚ) ^ (-1074 : ℤ) ≤ |q|) : -324 ≤ ratLog 10 |q| := by
  unfold ratLog
  split_ifs with h1
  · omega
  · have hq : (0 : ℚ) < |q| := abs_pos.mpr h0
    have hinv : |q|⁻¹ ≤ (2 : ℚ) ^ (1074 : ℤ) := by
      rw [inv_le_comm₀ hq (by positivity), ← zpow_neg]
      exact h2
    have hpow : (2 : ℚ) ^ (1074 : ℤ) ≤ ((10 ^ 324 : ℕ) : ℚ) := by
      have ha : (2 : ℚ) ^ (1074 : ℤ) = ((2 ^ 1074 : ℕ) : ℚ) := by
        push_cast
        rw [← zpow_natCast (2 : ℚ) 1074]
        norm_num
      rw [ha]
      exact_mod_cast (by norm_num : (2 ^ 1074 : ℕ) ≤ 10 ^ 324)
    have hceil : ⌈|q|⁻¹⌉₊ ≤ 10 ^ 324 := Nat.ceil_le.mpr (le_trans hinv hpow)
    have h3 := natClogAux_le_of_le_pow 10 (by norm_num) 2000 ⌈|q|⁻¹⌉₊ 324 hceil
    omega

/-! ## Termination of the shortest-digit search -/

/-- Every finite binary64 value lies on the decimal grid of step
10 ^ (-1075). -/
theorem exists_grid_int (q : ℚ) (hfin : IsFiniteF64 q) :
    ∃ N : ℤ, q = (N : ℚ) * (10 : ℚ) ^ (-1075 : ℤ) := by
  have hval := (roundF64_finite_val q q hfin).1
  unfold roundVal at hval
  have hesb := (esF64_bound q).1
  generalize hE : esF64 q = E at hval hesb
  set m := roundHalfEven (q / 2 ^ E) with hm
  refine ⟨m * 2 ^ (E + 1075).toNat * 5 ^ 1075, ?_⟩
  rw [hval]
  push_cast
  rw [← zpow_natCast (2 : ℚ) (E + 1075).toNat, Int.toNat_of_nonneg (by omega)]
  have key : (2 : ℚ) ^ (1075 : ℕ) * (5 : ℚ) ^ (1075 : ℕ) = (10 : ℚ) ^ (1075 : ℕ) := by
    rw [← mul_pow]
    norm_num
  have hz : (10 : ℚ) ^ (1075 : ℕ) * (10 : ℚ) ^ (-1075 : ℤ) = 1 := by
    rw [← zpow_natCast (10 : ℚ) 1075, ← zpow_add₀ (by norm_num : (10 : ℚ) ≠ 0)]
    norm_num
  have h2 : (2 : ℚ) ^ (E + 1075) = (2 : ℚ) ^ E * (2 : ℚ) ^ (1075 : ℕ) := by
    rw [zpow_add₀ (by norm_num : (2 : ℚ) ≠ 0), ← zpow_natCast (2 : ℚ) 1075]
    norm_num
  calc ((m : ℚ)) * 2 ^ E
      = (m : ℚ) * 2 ^ E * ((10 : ℚ) ^ (1075 : ℕ) * (10 : ℚ) ^ (-1075 : ℤ)) := by
        rw [hz, mul_one]
    _ = (m : ℚ) * ((2 : ℚ) ^ E * (2 : ℚ) ^ (1075 : ℕ)) * 5 ^ (1075 : ℕ) *
          (10 : ℚ) ^ (-1075 : ℤ) := by
        rw [← key]
        ring
    _ = (m : ℚ) * 2 ^ (E + 1075) * 5 ^ (1075 : ℕ) * (10 : ℚ) ^ (-1075 : ℤ) := by
        rw [h2]

/-- A search step at an index placing the grid step at 10 ^ (-1075) always
finds a candidate on a finite input: the lower grid value is the input
itself. -/
theorem shortestAtK_term (q : ℚ) (hfin : IsFiniteF64 q)
    (t : ℤ) (k : ℕ) (hk : t - k + 1 = -1075) :
    shortestAtK q t k ≠ none := by
  obtain ⟨N, hN⟩ := exists_grid_int q hfin
  intro hc
  obtain ⟨hlo, _⟩ := shortestAtK_none q t k hc
  rw [hk] at hlo
  have hstep : pow10z (-1075) = (10 : ℚ) ^ (-1075 : ℤ) :=
    pow10z_eq_range _ (by norm_num) (by norm_num)
  rw [hstep] at hlo
  have hql : q / (10 : ℚ) ^ (-1075 : ℤ) = (N : ℚ) := by
    rw [hN, mul_div_assoc, div_self (by positivity), mul_one]
  rw [hql, Int.floor_intCast, ← hN] at hlo
  exact hlo hfin

/-! ## Digit count of the found candidate -/

/-- The candidate returned by a search step is a grid value with at most k
significant digits, with its decimal exponent no lower than the step used
by the search. -/
theorem shortestAtK_digits (q : ℚ) (t : ℤ) (k : ℕ) (c : ℚ)
    (hk1 : 1 ≤ k)
    (h1 : -2400 ≤ t - k + 1) (h2 : t - k + 1 ≤ 2400)
    (hq_up : |q| < (10 : ℚ) ^ (t + 1))
    (h : shortestAtK q t k = some c) :
    ∃ n p : ℤ, c = (n : ℚ) * 10 ^ p ∧ |n| < 10 ^ k ∧ t - k + 1 ≤ p ∧ p ≤ t + 1 := by
  have hstep : pow10z (t - k + 1) = (10 : ℚ) ^ (t - k + 1) := pow10z_eq_range _ h1 h2
  have hspos : (0 : ℚ) < (10 : ℚ) ^ (t - k + 1) := by positivity
  have hsplit : (10 : ℚ) ^ (t + 1) = (10 : ℚ) ^ (k : ℤ) * (10 : ℚ) ^ (t - k + 1) := by
    rw [← zpow_add₀ (by norm_num : (10 : ℚ) ≠ 0)]
    congr 1
    ring
  have hx_lt : |q / (10 : ℚ) ^ (t - k + 1)| < (10 : ℚ) ^ (k : ℤ) := by
    rw [abs_div, abs_of_pos hspos, div_lt_iff₀ hspos, ← hsplit]
    exact hq_up
  have hmem := shortestAtK_mem q t k c h
  rw [hstep] at hmem
  set z := ⌊q / (10 : ℚ) ^ (t - k + 1)⌋ with hzdef
  have hz_le : (z : ℚ) ≤ q / (10 : ℚ) ^ (t - k + 1) := Int.floor_le _
  have hz_gt : q / (10 : ℚ) ^ (t - k + 1) < (z : ℚ) + 1 := Int.lt_floor_add_one _
  have hpow_cast : (((10 : ℤ) ^ k : ℤ) : ℚ) = (10 : ℚ) ^ (k : ℤ) := by
    push_cast
    rw [zpow_natCast]
  have hz_up : z < (10 : ℤ) ^ k := by
    have hA : (z : ℚ) < (10 : ℚ) ^ (k : ℤ) :=
      lt_of_le_of_lt hz_le (lt_of_le_of_lt (le_abs_self _) hx_lt)
    rw [← hpow_cast] at hA
    exact_mod_cast hA
  have hz_lo : -((10 : ℤ) ^ k) ≤ z := by
    have hA : -((10 : ℚ) ^ (k : ℤ)) < (z : ℚ) + 1 :=
      lt_trans (abs_lt.mp hx_lt).1 hz_gt
    rw [← hpow_cast] at hA
    have hB : -((10 : ℤ) ^ k) < z + 1 := by exact_mod_cast hA
    exact Int.lt_add_one_iff.mp hB
  rcases hmem with hc | hc
  · by_cases hze : z = -((10 : ℤ) ^ k)
    · refine ⟨-1, t + 1, ?_, ?_, by omega, by omega⟩
      · rw [hc, hze, hsplit]
        push_cast
        rw [← zpow_natCast (10 : ℚ) k]
        ring
      · rw [abs_neg, abs_one]
        calc (1 : ℤ) = 1 ^ k := (one_pow k).symm
          _ < 10 ^ k := pow_lt_pow_left₀ (by norm_num) (by norm_num) (by omega)
    · exact ⟨z, t - k + 1, hc,
        abs_lt.mpr ⟨lt_of_le_of_ne hz_lo (Ne.symm hze), hz_up⟩, le_refl _, by omega⟩
  · have hc2 : c = ((z + 1 : ℤ) : ℚ) * 10 ^ (t - k + 1) := by
      rw [hc]
      push_cast
      ring
    by_cases hze : z + 1 = (10 : ℤ) ^ k
    · refine ⟨1, t + 1, ?_, ?_, by omega, by omega⟩
      · rw [hc2, hze, hsplit]
        push_cast
        rw [← zpow_natCast (10 : ℚ) k]
        ring
      · rw [abs_one]
        calc (1 : ℤ) = 1 ^ k := (one_pow k).symm
          _ < 10 ^ k := pow_lt_pow_left₀ (by norm_num) (by norm_num) (by omega)
    · exact ⟨z + 1, t - k + 1, hc2,
        abs_lt.mpr ⟨lt_of_le_of_lt hz_lo (lt_add_one z),
          lt_of_le_of_ne (Int.add_one_le_iff.mpr hz_up) hze⟩, le_refl _, by omega⟩

/-! ## The emitted shortest conversion: round trip and minimality -/

/-- The conversion emitted for a finite nonzero value: it converts back,
it fits in shortestK q significant digits with its decimal exponent at
least -1075, and no value with fewer significant digits converts back. -/
theorem shortest_correct (q : ℚ) (hfin : IsFiniteF64 q) (h0 : q ≠ 0) :
    roundF64 (shortest q) = .finite q ∧
    (∃ n p : ℤ, shortest q = (n : ℚ) * 10 ^ p ∧ |n| < 10 ^ shortestK q ∧
      -1075 ≤ p ∧ p ≤ 309) ∧
    shortestK q ≤ 1384 ∧
    ∀ v k2, k2 < shortestK q → DecDigits v k2 → roundF64 v ≠ .finite q := by
  have hqpos : (0 : ℚ) < |q| := abs_pos.mpr h0
  have habs_le : |q| ≤ maxFiniteF64 := (roundF64_finite_val q q hfin).2
  have habs_ge : (2 : ℚ) ^ (-1074 : ℤ) ≤ |q| := abs_ge_min_subnormal q hfin h0
  have ht_ub : ratLog 10 |q| ≤ 308 := ratLog10_le_308 q h0 habs_le
  have ht_lb : -324 ≤ ratLog 10 |q| := neg324_le_ratLog10 q h0 habs_ge
  have hkt : ratLog 10 |q| - (((ratLog 10 |q| + 1075).toNat + 1 : ℕ) : ℤ) + 1 = -1075 := by
    omega
  have hterm : shortestAtK q (ratLog 10 |q|) ((ratLog 10 |q| + 1075).toNat + 1) ≠ none :=
    shortestAtK_term q hfin _ _ hkt
  have hne : shortestAux q (ratLog 10 |q|) 2000 1 ≠ none :=
    shortestAux_ne_none q (ratLog 10 |q|) 2000 1 ((ratLog 10 |q| + 1075).toNat + 1)
      (by omega) (by omega) hterm
  obtain ⟨c, hsome⟩ : ∃ c, shortestAux q (ratLog 10 |q|) 2000 1 = some c := by
    rcases hcase : shortestAux q (ratLog 10 |q|) 2000 1 with _ | c
    · exact absurd hcase hne
    · exact ⟨c, rfl⟩
  have hshort : shortest q = c := by
    unfold shortest
    rw [hsome]
  have hKdef : shortestK q = shortestKAux q (ratLog 10 |q|) 2000 1 := rfl
  have hsk : shortestAtK q (ratLog 10 |q|) (shortestK q) = some c := by
    rw [hKdef]
    exact shortestAux_at_shortestKAux q _ 2000 1 c hsome
  have hK1 : 1 ≤ shortestK q := by
    rw [hKdef]
    exact shortestKAux_ge q _ 2000 1
  have hK_le : shortestK q ≤ (ratLog 10 |q| + 1075).toNat + 1 := by
    by_contra hcon
    push_neg at hcon
    apply hterm
    apply shortestAux_none_before q (ratLog 10 |q|) 2000 1 c hsome
      ((ratLog 10 |q| + 1075).toNat + 1) (by omega)
    rw [← hKdef]
    exact hcon
  have hq_up : |q| < (10 : ℚ) ^ (ratLog 10 |q| + 1) := by
    have h := ratLog_upper 10 (by norm_num) |q| hqpos (by omega)
    push_cast at h
    exact h
  have hq_lo : (10 : ℚ) ^ ratLog 10 |q| ≤ |q| := by
    have h := ratLog_lower 10 (by norm_num) |q| hqpos (by omega)
    push_cast at h
    exact h
  refine ⟨by rw [hshort]; exact shortestAtK_some _ _ _ _ hsk, ?_, by omega, ?_⟩
  · obtain ⟨n, p, hc1, hc2, hc3, hc4⟩ :=
      shortestAtK_digits q (ratLog 10 |q|) (shortestK q) c hK1 (by omega) (by omega)
        hq_up hsk
    exact ⟨n, p, by rw [hshort]; exact hc1, hc2, by omega, by omega⟩
  · intro v k2 hlt hd hv
    rcases Nat.eq_zero_or_pos k2 with hk20 | hk2p
    · subst hk20
      obtain ⟨n, p, hvnp, hn⟩ := hd
      have hn0 : n = 0 := by
        rw [pow_zero, abs_lt] at hn
        omega
      rw [hn0] at hvnp
      simp at hvnp
      rw [hvnp] at hv
      unfold roundF64 at hv
      rw [if_pos rfl] at hv
      injection hv with hq
      exact h0 hq.symm
    · have hnone : shortestAtK q (ratLog 10 |q|) k2 = none := by
        apply shortestAux_none_before q (ratLog 10 |q|) 2000 1 c hsome k2 (by omega)
        rw [← hKdef]
        exact hlt
      exact no_short_roundtrip q (ratLog 10 |q|) k2 hk2p hfin h0 hq_lo
        (by omega) (by omega) hnone v hd hv

/-! ## Parsing a decimal numeral back to its rational value

The claim speaks of parsing the emitted numeral back as a float64; the
numeral denotes a rational value (sign, integer digits, point, fraction
digits) and the float64 parse is roundF64 of that value. -/

/-- The value of a string of decimal digit characters, most significant
first. -/
def charsVal (cs : List Char) : ℕ :=
  cs.foldl (fun acc ch => acc * 10 + (ch.toNat - 48)) 0

/-- The rational denoted by an unsigned fixed-point numeral: the digits
before the first point, plus the digits after it scaled down. -/
def parseDecAbs (cs : List Char) : ℚ :=
  (charsVal (cs.takeWhile (fun ch => ch != '.')) : ℚ) +
    (charsVal ((cs.dropWhile (fun ch => ch != '.')).drop 1) : ℚ) /
      10 ^ ((cs.dropWhile (fun ch => ch != '.')).drop 1).length

/-- The rational denoted by a decimal numeral with an optional leading
minus sign. -/
def parseDec (cs : List Char) : ℚ :=
  if cs.head? = some '-' then -(parseDecAbs (cs.drop 1)) else parseDecAbs cs

theorem takeWhile_append_of_all (p : Char → Bool) (l1 l2 : List Char)
    (h : ∀ a ∈ l1, p a = true) :
    (l1 ++ l2).takeWhile p = l1 ++ l2.takeWhile p := by
  induction l1 with
  | nil => simp
  | cons a l ih =>
    have ha : p a = true := h a (by simp)
    simp only [List.cons_append, List.takeWhile_cons, ha, if_true]
    rw [ih (fun b hb => h b (by simp [hb]))]

theorem dropWhile_append_of_all (p : Char → Bool) (l1 l2 : List Char)
    (h : ∀ a ∈ l1, p a = true) :
    (l1 ++ l2).dropWhile p = l2.dropWhile p := by
  induction l1 with
  | nil => simp
  | cons a l ih =>
    have ha : p a = true := h a (by simp)
    simp only [List.cons_append, List.dropWhile_cons, ha, if_true]
    exact ih (fun b hb => h b (by simp [hb]))

theorem digit_char_toNat : ∀ d, d < 10 → (Char.ofNat (48 + d)).toNat = 48 + d := by
  decide

theorem digit_char_ne_dash : ∀ d, d < 10 → Char.ofNat (48 + d) ≠ '-' := by
  decide

theorem natToChars_not_dot (m : ℕ) :
    ∀ ch ∈ natToChars m, (ch != '.') = true := by
  intro ch hch
  obtain ⟨d, hd, rfl⟩ := natToChars_mem ch m hch
  simpa using digit_char_ne_dot d hd

theorem foldl_digits_val : ∀ fuel n a, n < 10 ^ fuel →
    ((digitsAux 10 fuel n).reverse.map (fun d => Char.ofNat (48 + d))).foldl
      (fun acc ch => acc * 10 + (ch.toNat - 48)) a =
      a * 10 ^ (digitsAux 10 fuel n).length + n := by
  intro fuel
  induction fuel with
  | zero =>
    intro n a h
    have hn : n = 0 := by simpa using h
    subst hn
    simp [digitsAux]
  | succ f ih =>
    intro n a h
    by_cases h0 : n = 0
    · subst h0
      simp [digitsAux]
    · rw [digitsAux]
      simp only [h0, if_false]
      rw [List.reverse_cons, List.map_append, List.foldl_append]
      have hdiv : n / 10 < 10 ^ f := by
        apply Nat.div_lt_of_lt_mul
        calc n < 10 ^ (f + 1) := h
          _ = 10 * 10 ^ f := by rw [pow_succ]; ring
      rw [ih (n / 10) a hdiv]
      simp only [List.map_cons, List.map_nil, List.foldl_cons, List.foldl_nil,
        List.length_cons]
      rw [digit_char_toNat (n % 10) (Nat.mod_lt n (by norm_num))]
      have hsub : 48 + n % 10 - 48 = n % 10 := by omega
      rw [hsub]
      calc (a * 10 ^ (digitsAux 10 f (n / 10)).length + n / 10) * 10 + n % 10
          = a * (10 ^ (digitsAux 10 f (n / 10)).length * 10) +
              (10 * (n / 10) + n % 10) := by ring
        _ = a * 10 ^ ((digitsAux 10 f (n / 10)).length + 1) + n := by
            rw [Nat.div_add_mod, pow_succ]

theorem charsVal_natToChars (n : ℕ) (h : n < 10 ^ 4000) :
    charsVal (natToChars n) = n := by
  unfold charsVal natToChars
  by_cases h0 : n = 0
  · subst h0
    rw [if_pos rfl]
    rfl
  · rw [if_neg h0]
    unfold natDigits
    rw [foldl_digits_val 4000 n 0 h]
    simp

theorem charsVal_replicate_zeros (pad : ℕ) :
    (List.replicate pad '0').foldl (fun acc ch => acc * 10 + (ch.toNat - 48)) 0 = 0 := by
  induction pad with
  | zero => rfl
  | succ p ih =>
    rw [List.replicate_succ, List.foldl_cons]
    have h00 : (0 : ℕ) * 10 + ('0'.toNat - 48) = 0 := rfl
    rw [h00]
    exact ih

theorem charsVal_replicate_zero_append (pad : ℕ) (l : List Char) :
    charsVal (List.replicate pad '0' ++ l) = charsVal l := by
  unfold charsVal
  rw [List.foldl_append, charsVal_replicate_zeros]

/-- Parsing an unsigned fixed-point rendering recovers the rendered
value. -/
theorem parseDecAbs_decCharsNat (N k : ℕ) (hk : 0 < k) (hN : N < 10 ^ 4000) :
    parseDecAbs (decCharsNat N k) = (N : ℚ) / 10 ^ k := by
  unfold parseDecAbs decCharsNat
  rw [if_neg (by omega : ¬ k = 0)]
  rw [takeWhile_append_of_all _ _ _ (natToChars_not_dot _),
    dropWhile_append_of_all _ _ _ (natToChars_not_dot _)]
  have hdot : (('.' :: (List.replicate (k - (natToChars (N % 10 ^ k)).length) '0' ++
      natToChars (N % 10 ^ k))).takeWhile (fun ch => ch != '.')) = [] := by
    simp [List.takeWhile_cons]
  have hdot2 : (('.' :: (List.replicate (k - (natToChars (N % 10 ^ k)).length) '0' ++
      natToChars (N % 10 ^ k))).dropWhile (fun ch => ch != '.')) =
      '.' :: (List.replicate (k - (natToChars (N % 10 ^ k)).length) '0' ++
        natToChars (N % 10 ^ k)) := by
    simp [List.dropWhile_cons]
  rw [hdot, hdot2, List.append_nil, List.drop_one, List.tail_cons]
  have hlen : (List.replicate (k - (natToChars (N % 10 ^ k)).length) '0' ++
      natToChars (N % 10 ^ k)).length = k := by
    rw [List.length_append, List.length_replicate]
    have hmod : N % 10 ^ k < 10 ^ k := Nat.mod_lt N (by positivity)
    have := natToChars_length_le (N % 10 ^ k) k hk hmod
    omega
  rw [hlen, charsVal_replicate_zero_append,
    charsVal_natToChars (N / 10 ^ k) (lt_of_le_of_lt (Nat.div_le_self N _) hN),
    charsVal_natToChars (N % 10 ^ k) (lt_of_le_of_lt (Nat.mod_le N _) hN)]
  have hcast : (10 : ℚ) ^ k * ((N / 10 ^ k : ℕ) : ℚ) + ((N % 10 ^ k : ℕ) : ℚ) =
      (N : ℚ) := by
    exact_mod_cast Nat.div_add_mod N (10 ^ k)
  have hpow : ((10 : ℚ) ^ k) ≠ 0 := by positivity
  rw [← hcast]
  field_simp
  ring

/-- A fixed-point rendering never starts with a minus sign. -/
theorem parseDec_decCharsNat (N k : ℕ) (hk : 0 < k) (hN : N < 10 ^ 4000) :
    parseDec (decCharsNat N k) = (N : ℚ) / 10 ^ k := by
  have hne : ¬ ((decCharsNat N k).head? = some '-') := by
    obtain ⟨a, l2, hl⟩ := List.exists_cons_of_ne_nil (natToChars_ne_nil (N / 10 ^ k))
    have hmem : a ∈ natToChars (N / 10 ^ k) := by
      rw [hl]
      exact List.mem_cons_self a l2
    obtain ⟨d, hd, rfl⟩ := natToChars_mem a _ hmem
    have hhead : (decCharsNat N k).head? = some (Char.ofNat (48 + d)) := by
      unfold decCharsNat
      rw [hl]
      rfl
    rw [hhead]
    intro hcon
    injection hcon with hcon2
    exact digit_char_ne_dash d hd hcon2
  unfold parseDec
  rw [if_neg hne]
  exact parseDecAbs_decCharsNat N k hk hN

theorem fracLenAux_le_fuel : ∀ fuel (c : ℚ), fracLenAux fuel c ≤ fuel := by
  intro fuel
  induction fuel with
  | zero =>
    intro c
    simp [fracLenAux]
  | succ f ih =>
    intro c
    unfold fracLenAux
    split_ifs
    · omega
    · have := ih (c * 10)
      omega

/-- If some number of fractional digits suffices to write c exactly, then
the computed number of fractional digits does. -/
theorem fracLenAux_complete : ∀ fuel (c : ℚ) j, j ≤ fuel → (c * 10 ^ j).den = 1 →
    (c * 10 ^ fracLenAux fuel c).den = 1 := by
  intro fuel
  induction fuel with
  | zero =>
    intro c j hj hden
    have hj0 : j = 0 := by omega
    subst hj0
    rw [show fracLenAux 0 c = 0 from rfl]
    exact hden
  | succ f ih =>
    intro c j hj hden
    unfold fracLenAux
    by_cases hc : c.den = 1
    · rw [if_pos hc]
      simpa using hc
    · rw [if_neg hc]
      have hj1 : 1 ≤ j := by
        by_contra hcon
        push_neg at hcon
        have hj0 : j = 0 := by omega
        subst hj0
        simp at hden
        exact hc hden
      have hden2 : ((c * 10) * 10 ^ (j - 1)).den = 1 := by
        have he : (c * 10) * 10 ^ (j - 1) = c * 10 ^ j := by
          rw [mul_assoc, ← pow_succ', show j - 1 + 1 = j from by omega]
        rw [he]
        exact hden
      have hstep := ih (c * 10) (j - 1) (by omega) hden2
      have he2 : c * 10 ^ (fracLenAux f (c * 10) + 1) =
          (c * 10) * 10 ^ fracLenAux f (c * 10) := by
        rw [pow_succ']
        ring
      rw [he2]
      exact hstep

/-- Parsing inverts the exact rendering of a non-integral decimal rational
in the range produced by the shortest conversion. -/
theorem parseDec_renderDec (c : ℚ) (hden : c.den ≠ 1) (n p : ℤ)
    (hc : c = (n : ℚ) * 10 ^ p) (hp : -1075 ≤ p)
    (hbound : |c| < (10 : ℚ) ^ (1700 : ℤ)) :
    parseDec (renderDec c) = c := by
  have hk : 0 < fracLen c := fracLen_pos c hden
  have hk2000 : fracLen c ≤ 2000 := fracLenAux_le_fuel 2000 c
  have hsum : 0 ≤ p + ((-p).toNat : ℤ) := by omega
  have hj2000 : (-p).toNat ≤ 2000 := by omega
  have hden_j : (c * 10 ^ ((-p).toNat : ℕ)).den = 1 := by
    have he : c * 10 ^ ((-p).toNat : ℕ) =
        ((n * 10 ^ (p + ((-p).toNat : ℤ)).toNat : ℤ) : ℚ) := by
      rw [hc]
      push_cast
      rw [mul_assoc, ← zpow_natCast (10 : ℚ) (-p).toNat,
        ← zpow_add₀ (by norm_num : (10 : ℚ) ≠ 0),
        ← zpow_natCast (10 : ℚ) (p + ((-p).toNat : ℤ)).toNat,
        Int.toNat_of_nonneg hsum]
    rw [he, Rat.den_intCast]
  have hcd : (c * 10 ^ fracLen c).den = 1 :=
    fracLenAux_complete 2000 c (-p).toNat hj2000 hden_j
  have habs_den : (|c| * 10 ^ fracLen c).den = 1 := by
    rcases abs_cases c with ⟨he, _⟩ | ⟨he, _⟩
    · rw [he]
      exact hcd
    · rw [he, neg_mul, Rat.neg_den]
      exact hcd
  have hnum_nonneg : 0 ≤ (|c| * 10 ^ fracLen c).num :=
    Rat.num_nonneg.mpr (mul_nonneg (abs_nonneg c) (pow_nonneg (by norm_num) _))
  obtain ⟨N, hNdef⟩ : ∃ N : ℕ, N = (|c| * 10 ^ fracLen c).num.toNat := ⟨_, rfl⟩
  have hNval : ((N : ℕ) : ℚ) = |c| * 10 ^ fracLen c := by
    rw [hNdef, ← Int.cast_natCast, Int.toNat_of_nonneg hnum_nonneg]
    exact (Rat.den_eq_one_iff _).mp habs_den
  have hNlt : N < 10 ^ 4000 := by
    have hcap : |c| * 10 ^ fracLen c < ((10 ^ 4000 : ℕ) : ℚ) := by
      push_cast
      have hzn : (10 : ℚ) ^ (1700 : ℤ) = (10 : ℚ) ^ (1700 : ℕ) := by
        rw [← zpow_natCast (10 : ℚ) 1700]
        norm_num
      calc |c| * 10 ^ fracLen c
          < (10 : ℚ) ^ (1700 : ℤ) * 10 ^ fracLen c := by
            exact mul_lt_mul_of_pos_right hbound (pow_pos (by norm_num) _)
        _ ≤ (10 : ℚ) ^ (1700 : ℤ) * 10 ^ (2000 : ℕ) := by
            apply mul_le_mul_of_nonneg_left _ (le_of_lt (zpow_pos (by norm_num) _))
            exact pow_le_pow_right₀ (by norm_num) hk2000
        _ = (10 : ℚ) ^ (3700 : ℕ) := by
            rw [hzn, ← pow_add]
        _ ≤ (10 : ℚ) ^ (4000 : ℕ) := pow_le_pow_right₀ (by norm_num) (by norm_num)
    rw [← hNval] at hcap
    exact_mod_cast hcap
  have hc0 : c ≠ 0 := by
    intro h
    rw [h] at hden
    exact hden rfl
  rcases lt_trichotomy c 0 with hneg | hzero | hpos
  · have hrd : renderDec c = '-' :: decCharsNat N (fracLen c) := by
      unfold renderDec
      rw [if_pos hneg, ← hNdef]
      rfl
    have hpd : parseDec ('-' :: decCharsNat N (fracLen c)) =
        -(parseDecAbs (decCharsNat N (fracLen c))) := by
      unfold parseDec
      rw [List.head?_cons, if_pos rfl]
      rfl
    rw [hrd, hpd, parseDecAbs_decCharsNat N (fracLen c) hk hNlt, hNval,
      mul_div_assoc, div_self (ne_of_gt (pow_pos (by norm_num) (fracLen c)) :
        ((10 : ℚ) ^ fracLen c) ≠ 0),
      mul_one, abs_of_neg hneg]
    ring
  · exact absurd hzero hc0
  · have hrd : renderDec c = decCharsNat N (fracLen c) := by
      unfold renderDec
      rw [if_neg (not_lt.mpr (le_of_lt hpos)), ← hNdef]
      rfl
    rw [hrd, parseDec_decCharsNat N (fracLen c) hk hNlt, hNval,
      mul_div_assoc, div_self (ne_of_gt (pow_pos (by norm_num) (fracLen c)) :
        ((10 : ℚ) ^ fracLen c) ≠ 0),
      mul_one]
    exact abs_of_pos hpos

/-! ## The claim about the shortest round-trip representation -/

/-- C4: for every finite non-integral float64 value q, MarshalJSON emits
the decimal numeral of the shortest round-trip conversion of q: parsing
the emitted numeral back and converting the parsed value to a float64
yields exactly q, the parsed value fits in shortestK q significant digits,
and no decimal value with fewer significant digits converts back to q. -/
theorem C4_shortest_roundtrip (q : ℚ) (hfin : IsFiniteF64 q)
    (hfrac : ¬ ((truncQ q : ℚ) = q)) :
    FloatFrac.MarshalJSON (.finite q) = .ok (renderDec (shortest q)) ∧
    roundF64 (parseDec (renderDec (shortest q))) = .finite q ∧
    DecDigits (parseDec (renderDec (shortest q))) (shortestK q) ∧
    ∀ v k2, k2 < shortestK q → DecDigits v k2 → roundF64 v ≠ .finite q := by
  have hq0 : q ≠ 0 := by
    intro h
    apply hfrac
    rw [h]
    norm_num [truncQ]
  obtain ⟨hrt, ⟨n, p, hc1, hc2, hp1, hp2⟩, hKb, hmin⟩ := shortest_correct q hfin hq0
  have hqden : q.den ≠ 1 := fun hd => hfrac ((trunc_eq_self_iff q).mpr hd)
  have hden : (shortest q).den ≠ 1 := shortest_den q hqden
  have hbound : |shortest q| < (10 : ℚ) ^ (1700 : ℤ) := by
    rw [hc1, abs_mul]
    have h1 : |(n : ℚ)| < (10 : ℚ) ^ (1384 : ℕ) := by
      have h1a : |n| < 10 ^ 1384 :=
        lt_of_lt_of_le hc2 (pow_le_pow_right₀ (by norm_num) hKb)
      exact_mod_cast h1a
    have hzp : (0 : ℚ) < (10 : ℚ) ^ p := zpow_pos (by norm_num) p
    have h2 : |(10 : ℚ) ^ p| ≤ (10 : ℚ) ^ (309 : ℤ) := by
      rw [abs_of_pos hzp]
      exact zpow_le_zpow_right₀ (by norm_num) hp2
    calc |(n : ℚ)| * |(10 : ℚ) ^ p|
        ≤ |(n : ℚ)| * (10 : ℚ) ^ (309 : ℤ) :=
          mul_le_mul_of_nonneg_left h2 (abs_nonneg _)
      _ < (10 : ℚ) ^ (1384 : ℕ) * (10 : ℚ) ^ (309 : ℤ) :=
          mul_lt_mul_of_pos_right h1 (zpow_pos (by norm_num) _)
      _ ≤ (10 : ℚ) ^ (1700 : ℤ) := by
          rw [show ((10 : ℚ) ^ (1384 : ℕ)) = (10 : ℚ) ^ (1384 : ℤ) from by
            rw [← zpow_natCast (10 : ℚ) 1384]
            norm_num]
          rw [← zpow_add₀ (by norm_num : (10 : ℚ) ≠ 0)]
          exact zpow_le_zpow_right₀ (by norm_num) (by norm_num)
  have hparse : parseDec (renderDec (shortest q)) = shortest q :=
    parseDec_renderDec (shortest q) hden n p hc1 hp1 hbound
  refine ⟨marshal_eq_frac q hfrac, ?_, ?_, hmin⟩
  · rw [hparse]
    exact hrt
  · rw [hparse]
    exact ⟨n, p, hc1, hc2⟩

theorem C4_shortest_roundtrip_witness :
    (IsFiniteF64 (3 / 2 : ℚ) ∧ ¬ ((truncQ (3 / 2 : ℚ) : ℚ) = 3 / 2)) ∧
    (FloatFrac.MarshalJSON (.finite (3 / 2 : ℚ)) =
        .ok (renderDec (shortest (3 / 2 : ℚ))) ∧
      roundF64 (parseDec (renderDec (shortest (3 / 2 : ℚ)))) = .finite (3 / 2 : ℚ) ∧
      DecDigits (parseDec (renderDec (shortest (3 / 2 : ℚ)))) (shortestK (3 / 2 : ℚ)) ∧
      ∀ v k2, k2 < shortestK (3 / 2 : ℚ) → DecDigits v k2 →
        roundF64 v ≠ .finite (3 / 2 : ℚ)) :=
  ⟨⟨by decide, by decide⟩, C4_shortest_roundtrip (3 / 2) (by decide) (by decide)⟩

end GoOpenAI
